import Mathlib

/-!
Verification development for the rpack sandboxed execution core.

The Go sources are shallowly embedded: Go strings are modelled as `List Char`
(one `Char` per byte; all concrete inputs used below are ASCII, where the two
notions coincide), Go slices as Lean lists, Go maps as association lists or
update functions, and filesystem state as explicit oracles.  Fallible Go
functions return `Option` or `Except`.  The helper functions of Go's
`path/filepath` and `strings` packages that the sources call (`Clean`,
`IsAbs`, `IsLocal`, `Join`, `Match`, `CutPrefix`, `Cut`, `Split`, `Join`,
`Contains`, `HasSuffix`) are reimplemented here following the Go standard
library's algorithms for Unix path semantics (separator `/`).
-/

/-- Go strings, modelled as lists of characters. -/
abbrev GoStr := List Char

/-- Splits a character list at every occurrence of the separator character.
`splitOnChar '/' "a//b"` gives `["a", "", "b"]`, as Go's path component
scanning does. -/
def splitOnChar (sep : Char) : GoStr → List GoStr
  | [] => [[]]
  | c :: cs =>
    if c = sep then [] :: splitOnChar sep cs
    else
      match splitOnChar sep cs with
      | [] => [[c]]
      | p :: ps => (c :: p) :: ps

/-- Joins a list of character lists with the separator character in between. -/
def joinWithChar (sep : Char) : List GoStr → GoStr
  | [] => []
  | [p] => p
  | p :: ps => p ++ sep :: joinWithChar sep ps

/-- One step of the lexical cleaning: processes path elements against a
stack of kept elements (stack top at the head).  `..` pops a regular
element, is dropped at the root, and is kept when it cannot be resolved in a
relative path; empty and `.` elements are dropped.  This is the element
discipline of Go's `path.Clean` (Plan 9 `cleanname`). -/
def cleanStack (rooted : Bool) : List GoStr → List GoStr → List GoStr
  | acc, [] => acc
  | acc, p :: ps =>
    if p = [] ∨ p = ['.'] then cleanStack rooted acc ps
    else if p = ['.', '.'] then
      match acc with
      | [] => cleanStack rooted (if rooted then [] else [['.', '.']]) ps
      | a :: rest =>
        if a = ['.', '.'] then cleanStack rooted (p :: a :: rest) ps
        else cleanStack rooted rest ps
    else cleanStack rooted (p :: acc) ps

/-- Renders a cleaned element stack back into a path string. -/
def renderClean (rooted : Bool) (stack : List GoStr) : GoStr :=
  let body := joinWithChar '/' stack.reverse
  if rooted then '/' :: body
  else if body = [] then ['.'] else body

/-- Model of Go `filepath.Clean` for Unix: shortest lexically equivalent
path. -/
def goClean (p : GoStr) : GoStr :=
  if p = [] then ['.']
  else
    let rooted := p.head? = some '/'
    renderClean rooted (cleanStack rooted [] (splitOnChar '/' p))

/-- Model of Go `filepath.IsAbs` for Unix: the path starts with `/`. -/
def goIsAbs (p : GoStr) : Bool :=
  p.head? = some '/'

/-- Model of Go `filepath.IsLocal` for Unix: non-empty, relative, and it does
not escape the directory it is evaluated in after `..` resolution. -/
def goIsLocal (p : GoStr) : Bool :=
  if goIsAbs p ∨ p = [] then false
  else
    let hasDots := (splitOnChar '/' p).any fun part => part = ['.'] ∨ part = ['.', '.']
    let q := if hasDots then goClean p else p
    ¬(q = ['.', '.']) ∧ ¬(['.', '.', '/'].isPrefixOf q)

/-- Model of Go `strings.CutPrefix`: `some rest` when `pre` is a leading
piece of `s` (always the case for the empty `pre`), `none` otherwise. -/
def cutPre (s pre : GoStr) : Option GoStr :=
  if pre.isPrefixOf s then some (s.drop pre.length) else none

/-- Model of Go `strings.Cut` at a single-character separator: the pieces
before and after the first occurrence, and whether one was found. -/
def strCut (sep : Char) : GoStr → GoStr × GoStr × Bool
  | [] => ([], [], false)
  | c :: cs =>
    if c = sep then ([], cs, true)
    else
      let (b, a, f) := strCut sep cs
      (c :: b, a, f)

/-- Model of Go `filepath.Join` on two elements: empty elements are skipped,
the rest are joined with `/` and cleaned; all-empty input gives the empty
string. -/
def goJoin2 (a b : GoStr) : GoStr :=
  if a = [] then
    if b = [] then [] else goClean b
  else goClean (a ++ '/' :: b)

example : goClean "a/./b/../c".toList = "a/c".toList := by decide
example : goClean "".toList = ".".toList := by decide
example : goClean "/../x".toList = "/x".toList := by decide
example : goClean "a/../../b".toList = "../b".toList := by decide
example : goClean "a//b/".toList = "a/b".toList := by decide
example : goIsLocal "a/b".toList = true := by decide
example : goIsLocal "./a".toList = true := by decide
example : goIsLocal "../a".toList = false := by decide
example : goIsLocal ".".toList = true := by decide
example : goIsLocal "..".toList = false := by decide
example : goIsLocal "".toList = false := by decide
example : goIsAbs "/a".toList = true := by decide
example : goJoin2 "base".toList "x/y".toList = "base/x/y".toList := by decide
example : goJoin2 "".toList "x".toList = "x".toList := by decide
example : cutPre "rpack:foo".toList "rpack:".toList = some "foo".toList := by decide
example : cutPre "foo".toList "".toList = some "foo".toList := by decide
example : strCut '/' "a/b/c".toList = ("a".toList, "b/c".toList, true) := by decide
example : strCut '/' "abc".toList = ("abc".toList, [], false) := by decide

/-!
Model of Go `path/filepath.Match` (Unix).  The pattern syntax and the
scanning structure follow the Go standard library's `match.go`: a pattern is
scanned chunk by chunk (`scanChunk`), each chunk is matched against the name
(`matchChunk` with its character-class parser `getEsc`), `*` never matches a
separator, and a malformed pattern yields `ErrBadPattern` (modelled as
`Except.error ()`).
-/

/-- Outcome of matching one chunk: the unmatched rest of the name on
success, a plain mismatch, or a bad pattern. -/
inductive ChunkRes where
  | ok (rest : GoStr)
  | nomatch
  | bad
deriving DecidableEq, Repr

/-- Strips the leading `*`s of a pattern, reporting whether there was one. -/
def stripStars : GoStr → Bool × GoStr
  | [] => (false, [])
  | c :: cs => if c = '*' then (true, (stripStars cs).2) else (false, c :: cs)

/-- Scans the body of a chunk up to the next `*` that is outside a character
class; a backslash protects the following character. -/
def scanBody (inrange : Bool) : GoStr → GoStr × GoStr
  | [] => ([], [])
  | c :: cs =>
    if c = '\\' then
      match cs with
      | [] => ([c], [])
      | d :: ds =>
        let (ch, rest) := scanBody inrange ds
        (c :: d :: ch, rest)
    else if c = '*' ∧ ¬inrange then ([], c :: cs)
    else
      let inrange' := if c = '[' then true else if c = ']' then false else inrange
      let (ch, rest) := scanBody inrange' cs
      (c :: ch, rest)

/-- Model of Go `scanChunk`: leading-star flag, the first chunk, and the
remaining pattern. -/
def scanChunk (pattern : GoStr) : Bool × GoStr × GoStr :=
  let (star, p) := stripStars pattern
  let (chunk, rest) := scanBody false p
  (star, chunk, rest)

/-- Model of Go `getEsc`: reads one possibly-escaped character of a
character class; a leading `-` or `]`, a dangling escape, or an exhausted
class is a bad pattern. -/
def getEsc (chunk : GoStr) : Except Unit (Char × GoStr) :=
  match chunk with
  | [] => .error ()
  | c :: rest =>
    if c = '-' ∨ c = ']' then .error ()
    else if c = '\\' then
      match rest with
      | [] => .error ()
      | r :: rest2 => if rest2 = [] then .error () else .ok (r, rest2)
    else if rest = [] then .error () else .ok (c, rest)

/-- Parses the ranges of a character class against the (already consumed)
name character `r`, following the range loop of Go `matchChunk`.  The first
argument is a ghost fuel counter kept at least as large as the chunk length:
every loop iteration of the Go code consumes at least one byte of the chunk,
so with initial fuel `chunk.length` the zero-fuel branch (where the chunk
must already be empty and `getEsc` fails) is never reached. -/
def parseRangesF (r : Char) : Nat → GoStr → Bool → Nat → Except Unit (Bool × GoStr)
  | fuel, chunk, matched, nrange =>
    if chunk.head? = some ']' ∧ 0 < nrange then .ok (matched, chunk.tail)
    else
      match getEsc chunk with
      | .error () => .error ()
      | .ok (lo, c1) =>
        match fuel with
        | 0 => .error ()
        | fuel + 1 =>
          if c1.head? = some '-' then
            match getEsc c1.tail with
            | .error () => .error ()
            | .ok (hi, c2) =>
              parseRangesF r fuel c2 (matched ∨ (lo ≤ r ∧ r ≤ hi)) (nrange + 1)
          else parseRangesF r fuel c1 (matched ∨ (lo ≤ r ∧ r ≤ lo)) (nrange + 1)

/-- Model of the range loop of Go `matchChunk` for a character class. -/
def parseRanges (r : Char) (chunk : GoStr) (matched : Bool) (nrange : Nat) :
    Except Unit (Bool × GoStr) :=
  parseRangesF r chunk.length chunk matched nrange

/-- Model of the main loop of Go `matchChunk`: matches a chunk at the start
of `s`; after a mismatch it keeps scanning the chunk to detect a malformed
pattern, as the Go code does with its `failed` flag.  The fuel counter is
kept at least as large as the chunk length (each iteration consumes at least
one chunk byte), so the zero-fuel branch is never reached. -/
def matchChunkF : Nat → GoStr → GoStr → Bool → ChunkRes
  | _, [], s, failed0 => if failed0 then .nomatch else .ok s
  | 0, _ :: _, _, _ => .bad
  | fuel + 1, c :: cr, s, failed0 =>
    let failed := failed0 || s.isEmpty
    if c = '[' then
      let r := if failed then '\x00' else s.headD '\x00'
      let s2 := if failed then s else s.tail
      let negated := cr.head? = some '^'
      let chunk1 := if negated then cr.tail else cr
      match parseRanges r chunk1 false 0 with
      | .error () => .bad
      | .ok (matched, chunk2) =>
        matchChunkF fuel chunk2 s2 (failed || (matched == negated))
    else if c = '?' then
      if failed then matchChunkF fuel cr s true
      else
        match s with
        | [] => matchChunkF fuel cr [] true
        | sc :: st => matchChunkF fuel cr st (sc = '/')
    else if c = '\\' then
      match cr with
      | [] => .bad
      | e :: cr2 =>
        if failed then matchChunkF fuel cr2 s true
        else
          match s with
          | [] => matchChunkF fuel cr2 [] true
          | sc :: st => matchChunkF fuel cr2 st (e ≠ sc)
    else
      if failed then matchChunkF fuel cr s true
      else
        match s with
        | [] => matchChunkF fuel cr [] true
        | sc :: st => matchChunkF fuel cr st (c ≠ sc)

/-- Model of Go `matchChunk`. -/
def matchChunk (chunk s : GoStr) : ChunkRes :=
  matchChunkF chunk.length chunk s false

/-- Model of the star-backtracking loop of Go `Match`: tries to match the
chunk after skipping one more non-separator character of the name each
time. -/
def starSearch (chunk : GoStr) (restEmpty : Bool) : GoStr → ChunkRes
  | [] => .nomatch
  | c :: cs =>
    if c = '/' then .nomatch
    else
      match matchChunk chunk cs with
      | .bad => .bad
      | .ok t =>
        if restEmpty ∧ t ≠ [] then starSearch chunk restEmpty cs else .ok t
      | .nomatch => starSearch chunk restEmpty cs

/-- Model of the trailing validity scan of Go `Match`: after a definite
mismatch, the rest of the pattern is still checked for syntax errors.  The
fuel counter is kept at least as large as the pattern length (`scanChunk`
consumes at least one byte of a non-empty pattern). -/
def checkRemainderF : Nat → GoStr → Except Unit Bool
  | _, [] => .ok false
  | 0, _ :: _ => .error ()
  | fuel + 1, c :: pr =>
    let sc := scanChunk (c :: pr)
    match matchChunk sc.2.1 [] with
    | .bad => .error ()
    | _ => checkRemainderF fuel sc.2.2

/-- Model of the main loop of Go `filepath.Match` for Unix, over a fuel
counter kept at least as large as the pattern length (each loop iteration
consumes at least one pattern byte). -/
def goMatchF : Nat → GoStr → GoStr → Except Unit Bool
  | _, [], name => .ok name.isEmpty
  | 0, _ :: _, _ => .error ()
  | fuel + 1, c :: pr, name =>
    let sc := scanChunk (c :: pr)
    let star := sc.1
    let chunk := sc.2.1
    let rest := sc.2.2
    if star ∧ chunk = [] then .ok (!name.contains '/')
    else
      let fallback : Except Unit Bool :=
        if star then
          match starSearch chunk (rest = []) name with
          | .ok t => goMatchF fuel rest t
          | .bad => .error ()
          | .nomatch => checkRemainderF rest.length rest
        else checkRemainderF rest.length rest
      match matchChunk chunk name with
      | .bad => .error ()
      | .nomatch => fallback
      | .ok t => if t = [] ∨ rest ≠ [] then goMatchF fuel rest t else fallback

/-- Model of Go `filepath.Match` for Unix: reports whether the name matches
the shell pattern; a malformed pattern is `ErrBadPattern`, modelled as
`Except.error ()`. -/
def goMatch (pattern name : GoStr) : Except Unit Bool :=
  goMatchF pattern.length pattern name

deriving instance DecidableEq for Except

example : goMatch "a/*".toList "a/b".toList = .ok true := by decide
example : goMatch "a/*".toList "a/b/c".toList = .ok false := by decide
example : goMatch "a/*".toList "a/".toList = .ok true := by decide
example : goMatch "a/*".toList "b/c".toList = .ok false := by decide
example : goMatch "*".toList "abc".toList = .ok true := by decide
example : goMatch "*".toList "a/b".toList = .ok false := by decide
example : goMatch "a?c".toList "abc".toList = .ok true := by decide
example : goMatch "a?c".toList "a/c".toList = .ok false := by decide
example : goMatch "[a-c]".toList "b".toList = .ok true := by decide
example : goMatch "[^a-c]".toList "d".toList = .ok true := by decide
example : goMatch "\\*".toList "*".toList = .ok true := by decide
example : goMatch "\\*".toList "a".toList = .ok false := by decide
example : goMatch "[/*".toList "x".toList = .error () := by decide
example : goMatch "a[".toList "ab".toList = .error () := by decide
example : goMatch "ab[".toList "xy".toList = .error () := by decide
example : goMatch "a*b".toList "axxb".toList = .ok true := by decide
example : goMatch "".toList "".toList = .ok true := by decide
example : goMatch "".toList "a".toList = .ok false := by decide

/-!
Embedding of `pkg/rpack/filemodel.go` and the file-backed handle: resolver
identifiers, handles, the four resolvers of `NewRPackFS`, the
access-control hook, the purity hook (`EnsurePure`), and the recorder.
Errors are modelled by the inductive `FSErr`, whose constructors mirror the
error taxonomy (path-validation errors from resolvers, the unresolved-name
error of `BaseFS.resolve`, access-denial from the access-control hook, and
IO errors surfaced by handles).
-/

/-- Resolver identifier constants of `filemodel.go`. -/
def RPackResolver : String := "rpack"

/-- Resolver identifier of the scratch resolver. -/
def TempResolver : String := "temp"

/-- Resolver identifier of the mapped-input resolver. -/
def MapResolver : String := "map"

/-- Resolver identifier of the target resolver. -/
def TargetResolver : String := "target"

/-- Error kinds of the embedded filesystem layer. -/
inductive FSErr where
  | pathErr (msg : GoStr)
  | unresolved (name : GoStr)
  | accessDenied (msg : GoStr)
  | ioErr (msg : GoStr)
deriving DecidableEq

/-- Embedding of `FileBackedFSHandle`: the concrete backing path, the
friendly (prefixed) path, the owning resolver's identifier, and the
indirect target path used for purity matching and commit routing. -/
structure FSHandle where
  absPath : GoStr
  friendlyPath : GoStr
  resolver : String
  indirectTargetPath : GoStr
deriving DecidableEq

/-- Embedding of `NewFileBackedFSHandle`. -/
def NewFileBackedFSHandle (absPath friendlyPath : GoStr) (resolver : String)
    (indirectTargetPath : GoStr) : FSHandle :=
  ⟨absPath, friendlyPath, resolver, indirectTargetPath⟩

/-- Embedding of `FileBackedFSResolver.Resolve`: `none` when the prefix does
not match; otherwise the trimmed remainder is cleaned and must be relative
and local, and the handle maps into `baseDir`. -/
def FileBackedFSResolver.Resolve (rname : String) (pre baseDir name : GoStr) :
    Option (Except FSErr FSHandle) :=
  match cutPre name pre with
  | none => none
  | some suffix =>
    let cleanPath := goClean suffix
    if goIsAbs cleanPath then
      some (.error (.pathErr ("Path ".toList ++ name ++ " needs to be relative".toList)))
    else if ¬ goIsLocal cleanPath then
      some (.error (.pathErr ("Path ".toList ++ name ++ " needs to be local".toList)))
    else
      some (.ok (NewFileBackedFSHandle (goJoin2 baseDir cleanPath) (pre ++ cleanPath)
        rname cleanPath))

/-- Embedding of the input kind `RPackInputType` (the Go strings `file` and
`dir`). -/
inductive RPackInputType where
  | file
  | directory
deriving DecidableEq

/-- Embedding of `RPackResolvedInput`: a named user input with its cleaned
user-relative path, its resolved absolute path and its kind. -/
structure RPackResolvedInput where
  Name : GoStr
  UserPath : GoStr
  ResolvedPath : GoStr
  -- the Go field is named Type, a keyword here
  Typ : RPackInputType
deriving DecidableEq

/-- Embedding of `MapFSResolver.Resolve`: `map:NAME[/REL]` resolves through
the named input; an extra remainder is only allowed on directory inputs and
is cleaned and checked like every other remainder. -/
def MapFSResolver.Resolve (rname : String) (pre : GoStr)
    (resolvedInputs : List RPackResolvedInput) (name : GoStr) :
    Option (Except FSErr FSHandle) :=
  match cutPre name pre with
  | none => none
  | some suffix =>
    let cleanPath := goClean suffix
    if goIsAbs cleanPath then
      some (.error (.pathErr ("Path ".toList ++ name ++ " needs to be relative".toList)))
    else if ¬ goIsLocal cleanPath then
      some (.error (.pathErr ("Path ".toList ++ name ++ " needs to be local".toList)))
    else
      let (base, nextPath, found) := strCut '/' suffix
      match resolvedInputs.find? (fun ri => ri.Name = base) with
      | none =>
        some (.error (.pathErr ("Could not find mapped input ".toList ++ name)))
      | some ri =>
        let p := ri.ResolvedPath
        let relPath := ri.UserPath
        let cleanFriendlyName := pre ++ cleanPath
        if found then
          if ri.Typ ≠ .directory then
            some (.error (.pathErr ("Map path ".toList ++ name ++ " is not a directory".toList)))
          else
            let cleanNextPath := goClean nextPath
            if goIsAbs cleanNextPath then
              some (.error (.pathErr ("Map path ".toList ++ name ++ " needs to be relative".toList)))
            else if ¬ goIsLocal cleanNextPath then
              some (.error (.pathErr ("Map path ".toList ++ name ++ " needs to be local".toList)))
            else
              some (.ok (NewFileBackedFSHandle (goJoin2 p cleanNextPath) cleanFriendlyName
                rname (goJoin2 relPath cleanNextPath)))
        else
          some (.ok (NewFileBackedFSHandle p cleanFriendlyName rname relPath))

/-- Configuration of the filesystem built by `NewRPackFS`: the base
directories of the three file-backed resolvers and the resolved inputs of
the map resolver. -/
structure RPackFSCfg where
  defSourcePath : GoStr
  runPath : GoStr
  tempPath : GoStr
  resolvedInputs : List RPackResolvedInput
deriving DecidableEq

/-- Embedding of `BaseFS.resolve` over the resolver list of `NewRPackFS`:
the resolvers are tried in order (`rpack:`, `temp:`, `map:`, then the
target resolver whose empty prefix matches every name); when none matches
the name is unresolved. -/
def RPackFSCfg.resolveName (c : RPackFSCfg) (name : GoStr) : Except FSErr FSHandle :=
  match FileBackedFSResolver.Resolve RPackResolver "rpack:".toList c.defSourcePath name with
  | some r => r
  | none =>
    match FileBackedFSResolver.Resolve TempResolver "temp:".toList c.tempPath name with
    | some r => r
    | none =>
      match MapFSResolver.Resolve MapResolver "map:".toList c.resolvedInputs name with
      | some r => r
      | none =>
        match FileBackedFSResolver.Resolve TargetResolver [] c.runPath name with
        | some r => r
        | none => .error (.unresolved name)

/-- Embedding of `RPackAccessControlFSHook.Read`: reads from the target
directory are denied. -/
def RPackAccessControlFSHook.Read (h : FSHandle) : Option GoStr :=
  if h.resolver = TargetResolver then
    some ("Not allowed to read ".toList ++ h.friendlyPath ++
      " (no access to read from target directory, use 'rpack:' instead)".toList)
  else none

/-- Embedding of `RPackAccessControlFSHook.Write`: writes to the rpack
source and to mapped inputs are denied. -/
def RPackAccessControlFSHook.Write (h : FSHandle) : Option GoStr :=
  if h.resolver = RPackResolver then
    some ("Not allowed to write ".toList ++ h.friendlyPath ++ ", use `temp` instead".toList)
  else if h.resolver = MapResolver then
    some ("Not allowed to write ".toList ++ h.friendlyPath ++ ", use `target` instead".toList)
  else none

/-- Embedding of `RPackAccessControlFSHook.ReadDir`. -/
def RPackAccessControlFSHook.ReadDir (h : FSHandle) : Option GoStr :=
  if h.resolver = TargetResolver then
    some ("Not allowed to readdir ".toList ++ h.friendlyPath ++
      " (no access to read from target directory, use 'rpack:' instead)".toList)
  else none

/-- Embedding of `RPackAccessControlFSHook.Stat`. -/
def RPackAccessControlFSHook.Stat (h : FSHandle) : Option GoStr :=
  if h.resolver = TargetResolver then
    some ("Not allowed to stat ".toList ++ h.friendlyPath ++
      " (no access to read from target directory, use 'rpack:' instead)".toList)
  else none

/-- Embedding of the `EnsurePure` hook state: the handles recorded for
reads, directory reads, stats and writes. -/
structure EnsurePure where
  ReadHandles : List FSHandle
  ReadDirHandles : List FSHandle
  StatHandles : List FSHandle
  WriteHandles : List FSHandle
deriving DecidableEq

/-- Embedding of `EnsurePure.Read`: only map-resolver reads are tracked. -/
def EnsurePure.Read (f : EnsurePure) (h : FSHandle) : EnsurePure :=
  if h.resolver = MapResolver then { f with ReadHandles := f.ReadHandles ++ [h] } else f

/-- Embedding of `EnsurePure.Write`: only target-resolver writes are
tracked. -/
def EnsurePure.Write (f : EnsurePure) (h : FSHandle) : EnsurePure :=
  if h.resolver = TargetResolver then { f with WriteHandles := f.WriteHandles ++ [h] } else f

/-- Embedding of `EnsurePure.ReadDir`: only map-resolver directory reads are
tracked. -/
def EnsurePure.ReadDir (f : EnsurePure) (h : FSHandle) : EnsurePure :=
  if h.resolver = MapResolver then { f with ReadDirHandles := f.ReadDirHandles ++ [h] } else f

/-- Embedding of `EnsurePure.Stat`: only map-resolver stats are tracked. -/
def EnsurePure.Stat (f : EnsurePure) (h : FSHandle) : EnsurePure :=
  if h.resolver = MapResolver then { f with StatHandles := f.StatHandles ++ [h] } else f

/-- First loop of `EnsurePure.CheckConflicts`: each tracked read against
each tracked write, conflicting when the indirect target paths are equal. -/
def EnsurePure.checkReadsWrites (f : EnsurePure) : Option GoStr :=
  f.ReadHandles.findSome? fun rh => f.WriteHandles.findSome? fun wh =>
    if rh.indirectTargetPath = wh.indirectTargetPath then
      some ("Read of ".toList ++ rh.friendlyPath ++ " and write of same file ".toList ++
        wh.friendlyPath ++ " not allowed".toList)
    else none

/-- Second loop of `EnsurePure.CheckConflicts`: each tracked stat against
each tracked write. -/
def EnsurePure.checkStatsWrites (f : EnsurePure) : Option GoStr :=
  f.StatHandles.findSome? fun sh => f.WriteHandles.findSome? fun wh =>
    if sh.indirectTargetPath = wh.indirectTargetPath then
      some ("Stat on ".toList ++ sh.friendlyPath ++ " and write on same file ".toList ++
        wh.friendlyPath ++ " not allowed".toList)
    else none

/-- Third loop of `EnsurePure.CheckConflicts`: each tracked directory read
against each tracked write, matching the write against the glob
`readDirPath/*`; a bad pattern is also an error. -/
def EnsurePure.checkReadDirsWrites (f : EnsurePure) : Option GoStr :=
  f.ReadDirHandles.findSome? fun rdh => f.WriteHandles.findSome? fun wh =>
    match goMatch (goJoin2 rdh.indirectTargetPath ['*']) wh.indirectTargetPath with
    | .error () =>
      some ("ReadDir on ".toList ++ rdh.friendlyPath ++
        " error for pure-check against ".toList ++ wh.friendlyPath)
    | .ok true =>
      some ("ReadDir on ".toList ++ rdh.friendlyPath ++
        " and write on same directory ".toList ++ wh.friendlyPath ++ " not allowed".toList)
    | .ok false => none

/-- Embedding of `EnsurePure.CheckConflicts`: the three scans in the order
of the Go loops, returning the first conflict message. -/
def EnsurePure.CheckConflicts (f : EnsurePure) : Option GoStr :=
  match f.checkReadsWrites with
  | some e => some e
  | none =>
    match f.checkStatsWrites with
    | some e => some e
    | none => f.checkReadDirsWrites

/-- Embedding of `FSAccessType`. -/
inductive FSAccessType where
  | read
  | write
  | stat
  | readdir
deriving DecidableEq

/-- Embedding of `FSRecorderRecord`. -/
structure FSRecorderRecord where
  Typ : FSAccessType
  Handle : FSHandle
deriving DecidableEq

/-- Embedding of `TargetTransferHandleFilterFn`: keeps exactly the write
records whose handle belongs to the target resolver. -/
def TargetTransferHandleFilterFn (typ : FSAccessType) (h : FSHandle) : Bool :=
  if typ ≠ FSAccessType.write then false
  else if h.resolver ≠ TargetResolver then false
  else true

/-- Embedding of `RPackFS.TargetWriteHandles`: the handles of the recorded
target writes, in recording order. -/
def TargetWriteHandles (records : List FSRecorderRecord) : List FSHandle :=
  (records.filter (fun r => TargetTransferHandleFilterFn r.Typ r.Handle)).map (·.Handle)

/-!
Embedding of the mediated FS operations of `BaseFS` as used by `RPackFS`
(`NewRPackFS` wires the hook list `[RPackAccessControlFSHook, EnsurePure,
FSRecorder]`): each operation resolves the friendly name, runs the hooks in
order (the first failure aborts the call), then delegates to the handle.
The access-control hook is the only hook that can fail; the purity hook and
the recorder always succeed and only extend their in-memory state, so they
are threaded through an explicit state record.  Backing storage is an
explicit map from absolute paths: staged file contents for writes, and a
stat oracle (`DiskEntry`) for stats.
-/

/-- Hook and recorder state of one `RPackFS` (the purity hook state and the
recorder's record list). -/
structure RPackFSState where
  pureState : EnsurePure
  records : List FSRecorderRecord
deriving DecidableEq

/-- Initial state of a freshly built `RPackFS`. -/
def RPackFSState.init : RPackFSState :=
  ⟨⟨[], [], [], []⟩, []⟩

/-- Result of an `os.Stat` on the backing filesystem, as the handle sees
it: nothing there, a regular file with contents, a directory, or another
stat error. -/
inductive DiskEntry where
  | missing
  | file (content : GoStr)
  | dir
  | statErr
deriving DecidableEq

/-- Embedding of `FileBackedFSHandle.Write`: writes the bytes at the
handle's absolute path (parent directories are created by `os.MkdirAll`,
which the map model does not need to track). -/
def FileBackedFSHandle.Write (disk : GoStr → Option GoStr) (f : FSHandle) (b : GoStr) :
    GoStr → Option GoStr :=
  fun p => if p = f.absPath then some b else disk p

/-- Embedding of `FileBackedFSHandle.Stat`.  The Go method's named results
declare `(_dir, _exists, _err)` and it returns `fileInfo.IsDir(), true` for
an existing path — the directory flag in the first position — although the
`FSHandle` and `FS` interfaces declare `Stat() (exists bool, dir bool, err
error)`; the translation keeps the returned value order of the
implementation. -/
def FileBackedFSHandle.Stat (world : GoStr → DiskEntry) (f : FSHandle) :
    Except FSErr (Bool × Bool) :=
  match world f.absPath with
  | .missing => .ok (false, false)
  | .statErr => .error (.ioErr ("Error accessing file: ".toList ++ f.friendlyPath))
  | .file _ => .ok (false, true)
  | .dir => .ok (true, true)

/-- Embedding of `BaseFS.Write` for the `RPackFS` hook list: resolve, run
the write hooks (access control may deny; purity and recorder append), then
delegate to the handle's write. -/
def RPackFS.Write (c : RPackFSCfg) (st : RPackFSState) (disk : GoStr → Option GoStr)
    (name b : GoStr) : Except FSErr (RPackFSState × (GoStr → Option GoStr)) :=
  match c.resolveName name with
  | .error e => .error e
  | .ok handle =>
    match RPackAccessControlFSHook.Write handle with
    | some msg => .error (.accessDenied msg)
    | none =>
      let st1 : RPackFSState :=
        ⟨st.pureState.Write handle, st.records ++ [⟨FSAccessType.write, handle⟩]⟩
      .ok (st1, FileBackedFSHandle.Write disk handle b)

/-- Embedding of `BaseFS.Stat` for the `RPackFS` hook list: resolve, run
the stat hooks, then delegate to the handle's stat, returning the declared
`(exists, dir)` pair as the handle produced it. -/
def RPackFS.Stat (c : RPackFSCfg) (st : RPackFSState) (world : GoStr → DiskEntry)
    (name : GoStr) : Except FSErr ((Bool × Bool) × RPackFSState) :=
  match c.resolveName name with
  | .error e => .error e
  | .ok handle =>
    match RPackAccessControlFSHook.Stat handle with
    | some msg => .error (.accessDenied msg)
    | none =>
      let st1 : RPackFSState :=
        ⟨st.pureState.Stat handle, st.records ++ [⟨FSAccessType.stat, handle⟩]⟩
      match FileBackedFSHandle.Stat world handle with
      | .error e => .error e
      | .ok r => .ok (r, st1)

/-- Embedding of `BaseFS.Read` for the `RPackFS` hook list: resolve, run
the read hooks, then delegate to the handle's read of the backing file. -/
def RPackFS.Read (c : RPackFSCfg) (st : RPackFSState) (disk : GoStr → Option GoStr)
    (name : GoStr) : Except FSErr (GoStr × RPackFSState) :=
  match c.resolveName name with
  | .error e => .error e
  | .ok handle =>
    match RPackAccessControlFSHook.Read handle with
    | some msg => .error (.accessDenied msg)
    | none =>
      let st1 : RPackFSState :=
        ⟨st.pureState.Read handle, st.records ++ [⟨FSAccessType.read, handle⟩]⟩
      match disk handle.absPath with
      | none => .error (.ioErr ("Could not read ".toList ++ handle.friendlyPath))
      | some content => .ok (content, st1)

/-- Runs a script that performs a sequence of full-file writes through the
mediated FS, threading the hook state and the staging storage. -/
def RPackFS.runWrites (c : RPackFSCfg) :
    RPackFSState → (GoStr → Option GoStr) → List (GoStr × GoStr) →
    Except FSErr (RPackFSState × (GoStr → Option GoStr))
  | st, disk, [] => .ok (st, disk)
  | st, disk, (name, b) :: ops =>
    match RPackFS.Write c st disk name b with
    | .error e => .error e
    | .ok (st1, disk1) => RPackFS.runWrites c st1 disk1 ops

/-!
Embedding of the lockfile (`RPackLockFile` with `CheckIntegrity` and
`Changes`) and of the commit phase of `Executor.ExecRPack` — everything
after the script run and the purity gate.  The backing filesystem at the
execution path is the oracle `disk : GoStr → DiskEntry` together with the
content hash `shaOf` (an injective stand-in for SHA-256: the claims depend
only on hashes of equal contents being equal and of the model's differing
contents differing).  `os.Rename`, `os.MkdirAll`, `os.Remove` and the final
lockfile write are modelled as succeeding; the outcome records, in order,
the renames performed, the paths removed and the lockfile written.
-/

/-- Model of `util.Sha256String`/`util.Sha256File` content hashing: an
injective tag of the hashed bytes. -/
def shaOf (content : GoStr) : GoStr :=
  "sha256:".toList ++ content

/-- Embedding of `RPackLockFileFile`: one tracked path with its recorded
checksum. -/
structure RPackLockFileFile where
  Path : GoStr
  Sha : GoStr
deriving DecidableEq

/-- Embedding of `RPackLockFile`. -/
structure RPackLockFile where
  SchemaVersion : String
  Files : List RPackLockFileFile
deriving DecidableEq

/-- Embedding of `NewRPackLockFile`. -/
def NewRPackLockFile : RPackLockFile :=
  ⟨"v1", []⟩

/-- Embedding of `RPackLockFileIntegrity`. -/
structure RPackLockFileIntegrity where
  Modified : List GoStr
  Removed : List GoStr
deriving DecidableEq

/-- Loop of `RPackLockFile.CheckIntegrity` over the lockfile entries: an
entry whose backing path does not pass `util.CheckFileExists` (missing,
a directory, or another stat error) is reported removed; an existing
regular file with a different hash is reported modified.  The
hash-computation error branch of the Go code cannot arise in the model,
where reading an existing regular file always succeeds. -/
def checkIntegrityLoop (cleanBase : GoStr) (disk : GoStr → DiskEntry) :
    List RPackLockFileFile → RPackLockFileIntegrity
  | [] => ⟨[], []⟩
  | file :: rest =>
    let filePath := goJoin2 cleanBase file.Path
    let r := checkIntegrityLoop cleanBase disk rest
    match disk filePath with
    | .file content =>
      if file.Sha ≠ shaOf content then ⟨file.Path :: r.Modified, r.Removed⟩ else r
    | _ => ⟨r.Modified, file.Path :: r.Removed⟩

/-- Embedding of `RPackLockFile.CheckIntegrity`. -/
def RPackLockFile.CheckIntegrity (f : RPackLockFile) (path : GoStr)
    (disk : GoStr → DiskEntry) : RPackLockFileIntegrity :=
  checkIntegrityLoop (goClean path) disk f.Files

/-- Embedding of `RPackLockFileChanges`. -/
structure RPackLockFileChanges where
  Added : List GoStr
  Removed : List GoStr
deriving DecidableEq

/-- Embedding of `RPackLockFile.Changes`: the receiver is the new lockfile,
the argument the old one; entries are compared by path via the two path
sets the Go code builds first. -/
def RPackLockFile.Changes (f : RPackLockFile) (old : RPackLockFile) : RPackLockFileChanges :=
  let newFiles : List GoStr := f.Files.map (·.Path)
  let oldFiles : List GoStr := old.Files.map (·.Path)
  let removed := old.Files.filterMap fun ofile =>
    if ofile.Path ∈ newFiles then (none : Option GoStr) else some ofile.Path
  let added := f.Files.filterMap fun nfile =>
    if nfile.Path ∈ oldFiles then (none : Option GoStr) else some nfile.Path
  ⟨added, removed⟩

/-- Embedding of `ControlledFile` as the commit phase populates it: the
target-relative path and the staged absolute path. -/
structure ControlledFile where
  Path : GoStr
  AbsPath : GoStr
deriving DecidableEq

/-- Embedding of the move-collection loop of `Executor.ExecRPack`: walks
the recorded target-write handles in order, recomputes each staged absolute
path as `Clean(Join(runPath, indirectTargetPath))`, skips paths already
visited, hashes the staged file (failing when it is absent) and collects
the files to move in first-seen order together with the checksum map. -/
def collectFilesToMove (runPath : GoStr) (staging : GoStr → Option GoStr) :
    List FSHandle → List GoStr → (GoStr → Option GoStr) →
    Except FSErr (List ControlledFile × (GoStr → Option GoStr))
  | [], _, checksums => .ok ([], checksums)
  | handle :: hs, visited, checksums =>
    let relPath := handle.indirectTargetPath
    let absPath := goClean (goJoin2 runPath relPath)
    if absPath ∈ visited then collectFilesToMove runPath staging hs visited checksums
    else
      match staging absPath with
      | none => .error (.ioErr ("Failed to calculate checksum of: ".toList ++ absPath))
      | some content =>
        match collectFilesToMove runPath staging hs (absPath :: visited)
            (fun p => if p = absPath then some (shaOf content) else checksums p) with
        | .error e => .error e
        | .ok (rest, cks) => .ok (⟨relPath, absPath⟩ :: rest, cks)

/-- Embedding of the new-lockfile loop of `Executor.ExecRPack`: one
`AddFile` per file to move, looking its checksum up in the checksum map
(the Go code panics when the lookup fails; the model surfaces an error). -/
def buildNewLockfileFiles (checksums : GoStr → Option GoStr) :
    List ControlledFile → Except FSErr (List RPackLockFileFile)
  | [] => .ok []
  | w :: ws =>
    match checksums w.AbsPath with
    | none => .error (.ioErr "panic: cannot find checksum for file".toList)
    | some ch =>
      match buildNewLockfileFiles checksums ws with
      | .error e => .error e
      | .ok rest => .ok (⟨w.Path, ch⟩ :: rest)

/-- Embedding of the overwrite gate of `Executor.ExecRPack`: for each added
path, `util.FileExists` reports existence for a regular file, a directory
or a failing stat, and an existing target requires the force flag (the
error branch of the Go loop is checked after the existence flag). -/
def overwriteGate (force : Bool) (execPath : GoStr) (disk : GoStr → DiskEntry) :
    List GoStr → Option GoStr
  | [] => none
  | added :: rest =>
    let targetFile := goClean (goJoin2 execPath added)
    match disk targetFile with
    | .missing => overwriteGate force execPath disk rest
    | _ =>
      if ¬force then
        some ("Existing file would need to be overwritten, use force flag to ignore: ".toList
          ++ added)
      else overwriteGate force execPath disk rest

/-- Embedding of the move loop of `Executor.ExecRPack`: for each file to
move, parents are ensured and the staged file is renamed to
`Clean(Join(execPath, Path))`; renames are modelled as succeeding and the
pairs are listed in order. -/
def doMoves (execPath : GoStr) : List ControlledFile → List (GoStr × GoStr)
  | [] => []
  | w :: ws => (w.AbsPath, goClean (goJoin2 execPath w.Path)) :: doMoves execPath ws

/-- Embedding of the removal loop of `Executor.ExecRPack` over the `Removed`
diff: this loop checks the `util.FileExists` error before the existence
flag, so a directory or a failing stat aborts; a missing path only warns;
an existing regular file is removed.  The loop runs after the renames, but
a removed path (present in the old lockfile and absent from the new one) is
never a rename target, so the pre-commit disk oracle decides it. -/
def doRemovals (execPath : GoStr) (disk : GoStr → DiskEntry) :
    List GoStr → Except FSErr (List GoStr)
  | [] => .ok []
  | r :: rest =>
    let p := goJoin2 execPath r
    match disk p with
    | .statErr => .error (.ioErr ("Could not check deprecated file: ".toList ++ r))
    | .dir => .error (.ioErr ("Could not check deprecated file: ".toList ++ r))
    | .file _ =>
      match doRemovals execPath disk rest with
      | .error e => .error e
      | .ok others => .ok (p :: others)
    | .missing => doRemovals execPath disk rest

/-- Observable outcome of the commit phase: the renames performed (staged
source, target destination) in order, the paths removed, and the lockfile
persisted (`none` when the run stopped before writing one). -/
structure ExecOutcome where
  moved : List (GoStr × GoStr)
  removedFiles : List GoStr
  newLock : Option RPackLockFile
deriving DecidableEq

/-- Embedding of `Executor.ExecRPack` from the dry-run branch onward (the
part after script execution, the purity gate and the record dump): the
dry-run branch returns successfully at once; otherwise the write set is
collected and hashed, the old lockfile's integrity gate runs (modified
entries abort without force; removed entries only warn), the new lockfile
is built, the change diff is taken, the overwrite gate runs for added
paths, files are moved, obsolete files removed, and the new lockfile is
persisted. -/
def Executor.ExecCommit (dryRun force : Bool) (runPath execPath : GoStr)
    (records : List FSRecorderRecord) (staging : GoStr → Option GoStr)
    (oldLock : RPackLockFile) (disk : GoStr → DiskEntry) : Except FSErr ExecOutcome :=
  if dryRun then .ok ⟨[], [], none⟩
  else
    match collectFilesToMove runPath staging (TargetWriteHandles records) [] (fun _ => none) with
    | .error e => .error e
    | .ok (filesToMove, checksums) =>
      let integ := oldLock.CheckIntegrity execPath disk
      if integ.Modified ≠ [] ∧ ¬force then
        .error (.ioErr
          ("Some locked files were modified outside of rpack, use force flag to ignore".toList))
      else
        match buildNewLockfileFiles checksums filesToMove with
        | .error e => .error e
        | .ok files =>
          let newLockfile : RPackLockFile := ⟨NewRPackLockFile.SchemaVersion, files⟩
          let changes := newLockfile.Changes oldLock
          match overwriteGate force execPath disk changes.Added with
          | some msg => .error (.ioErr msg)
          | none =>
            match doRemovals execPath disk changes.Removed with
            | .error e => .error e
            | .ok removedPaths =>
              .ok ⟨doMoves execPath filesToMove, removedPaths, some newLockfile⟩

/-!
Embedding of the line-oriented helpers of `luamodel.go` (`luaReadLines`,
`luaWriteLines`) over the `InMemoryFS` of `filemodel.go` (the in-memory
variant of the `FS` interface that the repository's own tests run the Lua
API against).  `strings.Split`, `strings.Join`, `strings.Contains` and
`strings.HasSuffix` are modelled for character lists; the split carries a
ghost fuel counter kept at least as large as the remaining string (each
split step consumes the piece and the non-empty separator).
-/

/-- Index of the leftmost occurrence of `pat` in `s` (an empty `pat`
matches at 0), as Go `strings.Index`. -/
def subIdx? (s pat : GoStr) : Option Nat :=
  if pat.isPrefixOf s then some 0
  else
    match s with
    | [] => none
    | _ :: t => (subIdx? t pat).map (· + 1)

/-- Model of Go `strings.Contains`. -/
def containsSub (s pat : GoStr) : Bool :=
  (subIdx? s pat).isSome

/-- Splitting loop of Go `strings.Split` for a non-empty separator, over a
fuel counter kept at least as large as the string length. -/
def goSplitF (sep : GoStr) : Nat → GoStr → List GoStr
  | 0, s => [s]
  | fuel + 1, s =>
    match subIdx? s sep with
    | none => [s]
    | some i => s.take i :: goSplitF sep fuel (s.drop (i + sep.length))

/-- Model of Go `strings.Split`: around each non-overlapping leftmost
occurrence of `sep`; an empty separator explodes the string. -/
def goSplit (s sep : GoStr) : List GoStr :=
  if sep = [] then s.map (fun c => [c]) else goSplitF sep s.length s

/-- Model of Go `strings.Join`. -/
def goStringsJoin (elems : List GoStr) (sep : GoStr) : GoStr :=
  match elems with
  | [] => []
  | [x] => x
  | x :: xs => x ++ sep ++ goStringsJoin xs sep

example : goSplit "a,b,,c".toList ",".toList =
    ["a".toList, "b".toList, [], "c".toList] := by decide
example : goSplit "".toList ",".toList = [[]] := by decide
example : goSplit "aab".toList "ab".toList = ["a".toList, []] := by decide
example : containsSub "abc".toList "bc".toList = true := by decide
example : containsSub "abc".toList "cb".toList = false := by decide

/-- Embedding of `InMemoryFSEntry`. -/
structure InMemoryFSEntry where
  Content : GoStr
  IsDir : Bool
deriving DecidableEq

/-- Embedding of `InMemoryFS` (its map modelled as an association list). -/
structure InMemoryFS where
  Tree : List (GoStr × InMemoryFSEntry)
deriving DecidableEq

/-- Lookup in the association-list model of the Go map. -/
def InMemoryFS.lookup (fs : InMemoryFS) (name : GoStr) : Option InMemoryFSEntry :=
  (fs.Tree.find? (fun kv => kv.1 = name)).map (·.2)

/-- Embedding of `InMemoryFS.Write`: creates the entry when absent, refuses
directories, and replaces the content. -/
def InMemoryFS.Write (fs : InMemoryFS) (name b : GoStr) : Except GoStr InMemoryFS :=
  match fs.lookup name with
  | none => .ok ⟨fs.Tree ++ [(name, ⟨b, false⟩)]⟩
  | some e =>
    if e.IsDir then .error (name ++ " is directory".toList)
    else .ok ⟨fs.Tree.map (fun kv => if kv.1 = name then (kv.1, ⟨b, kv.2.IsDir⟩) else kv)⟩

/-- Embedding of `InMemoryFS.Read`: missing entries and directories are
errors. -/
def InMemoryFS.Read (fs : InMemoryFS) (name : GoStr) : Except GoStr GoStr :=
  match fs.lookup name with
  | none => .error ("File ".toList ++ name ++ " does not exist".toList)
  | some e =>
    if e.IsDir then .error (name ++ " is directory".toList)
    else .ok e.Content

/-- Result record of `luaReadLines`: the lines, the detected separator and
whether the file ended with it. -/
structure ReadLinesResult where
  lines : List GoStr
  separator : GoStr
  finalNewline : Bool
deriving DecidableEq

/-- Content part of `LuaModel.luaReadLines`: CRLF is detected when the
content contains one; the trailing empty element produced by a final
separator is stripped. -/
def readLinesOfContent (content : GoStr) : ReadLinesResult :=
  let sep := if containsSub content "\r\n".toList then "\r\n".toList else "\n".toList
  let finalNewline := sep.isSuffixOf content
  let linesArr := goSplit content sep
  let linesArr2 :=
    if finalNewline ∧ linesArr ≠ [] ∧ linesArr.getLast? = some [] then linesArr.dropLast
    else linesArr
  ⟨linesArr2, sep, finalNewline⟩

/-- Embedding of `LuaModel.luaReadLines` over the in-memory FS. -/
def LuaModel.luaReadLines (fs : InMemoryFS) (friendly : GoStr) : Except GoStr ReadLinesResult :=
  match fs.Read friendly with
  | .error e => .error e
  | .ok content => .ok (readLinesOfContent content)

/-- Content part of `LuaModel.luaWriteLines`: the joined lines, with a
final separator when requested. -/
def writeLinesContent (lines : List GoStr) (sep : GoStr) (finalNewline : Bool) : GoStr :=
  let content := goStringsJoin lines sep
  if finalNewline then content ++ sep else content

/-- Embedding of `LuaModel.luaWriteLines` over the in-memory FS. -/
def LuaModel.luaWriteLines (fs : InMemoryFS) (friendly : GoStr) (lines : List GoStr)
    (sep : GoStr) (finalNewline : Bool) : Except GoStr InMemoryFS :=
  fs.Write friendly (writeLinesContent lines sep finalNewline)

/-!
Embedding of the data-only serializers of `lualib_rpack.go`: `luaToJSON`
and `luaToYAML` both convert the Lua table with `luaTableToGo` and encode
the result with `json.MarshalIndent(goVal, "", "  ")`.  Lua values are the
inductive `LuaValue` (numbers carry `Float`, as `lua.LNumber` is a
float64); `encoding/json` is modelled by `jsonMarshalIndent` with
two-space indentation, sorted object keys, JSON string escaping with the
encoder's HTML escapes, and an error on non-finite floats.  Go's float and
Lua number formatting routines are modelled by one uninterpreted stand-in
(`floatFmt`), shared by every caller.
-/

/-- Embedding of the Lua values a script can place in a table:
`lua.LBool`, `lua.LNumber` (a float64), `lua.LString`, `lua.LTable`
(iterated in `ForEach` order), and the remaining kinds through their
`String()` rendering. -/
inductive LuaValue where
  | lbool (b : Bool)
  | lnum (x : Float)
  | lstr (s : String)
  | ltable (kvs : List (LuaValue × LuaValue))
  | lother (txt : String)

/-- Whether a Lua value is an `lua.LTNumber`, as `luaTableToGo` tests table
keys. -/
def LuaValue.isNum : LuaValue → Bool
  | .lnum _ => true
  | _ => false

/-- Stand-in for the float renderings of Go (`strconv`) and Lua (`%.14g`):
one uninterpreted formatting function shared by every model that prints a
number. -/
def floatFmt (x : Float) : String :=
  toString x

/-- Rendering `String()` of a Lua value as `luaTableToGo` uses it for map
keys (a table's address-based rendering is collapsed to a constant). -/
def luaValueString : LuaValue → String
  | .lbool b => if b then "true" else "false"
  | .lnum x => floatFmt x
  | .lstr s => s
  | .ltable _ => "table"
  | .lother txt => txt

/-- Model of Go `strconv.Atoi`: an optional sign followed by digits, within
the 64-bit integer range. -/
def goAtoi (s : String) : Option Int :=
  match s.toList with
  | [] => none
  | cs =>
    let signDigits : Int × List Char :=
      match cs with
      | '-' :: t => (-1, t)
      | '+' :: t => (1, t)
      | t => (1, t)
    let sign := signDigits.1
    let digits := signDigits.2
    if digits = [] ∨ ¬ digits.all (fun c => c.isDigit) then none
    else
      let n : Nat := digits.foldl (fun acc c => acc * 10 + (c.toNat - 48)) 0
      let v : Int := sign * (n : Int)
      if v < -(2 ^ 63) ∨ v > 2 ^ 63 - 1 then none else some v

/-- Embedding of the Go values produced by `lValueToGo` and
`luaTableToGo`: booleans, float64 numbers, integers parsed from strings,
strings, slices and string-keyed maps. -/
inductive GoValue where
  | vbool (b : Bool)
  | vnum (x : Float)
  | vint (n : Int)
  | vstr (s : String)
  | varr (xs : List GoValue)
  | vobj (kvs : List (String × GoValue))

mutual

/-- Embedding of `lValueToGo`: booleans, numbers and strings map directly
(a string that parses as an integer becomes one), tables recurse, and
every other value contributes its `String()` rendering. -/
def lValueToGo : LuaValue → GoValue
  | .lbool b => .vbool b
  | .lnum x => .vnum x
  | .lstr s =>
    match goAtoi s with
    | some i => .vint i
    | none => .vstr s
  | .lother txt => .vstr txt
  | .ltable kvs => luaTableToGo kvs
termination_by v => (sizeOf v, 0)

/-- Embedding of `luaTableToGo`: a table whose keys are all numbers becomes
the slice of its converted values; otherwise it becomes the map from the
keys' `String()` renderings to the converted values. -/
def luaTableToGo (kvs : List (LuaValue × LuaValue)) : GoValue :=
  if kvs.all (fun kv => kv.1.isNum) then .varr (luaListToGo kvs)
  else .vobj (luaPairsToGo kvs)
termination_by (sizeOf kvs, 1)

/-- Value conversion of the array branch of `luaTableToGo`. -/
def luaListToGo : List (LuaValue × LuaValue) → List GoValue
  | [] => []
  | (_k, v) :: rest => lValueToGo v :: luaListToGo rest
termination_by l => (sizeOf l, 0)

/-- Key and value conversion of the map branch of `luaTableToGo`. -/
def luaPairsToGo : List (LuaValue × LuaValue) → List (String × GoValue)
  | [] => []
  | (k, v) :: rest => (luaValueString k, lValueToGo v) :: luaPairsToGo rest
termination_by l => (sizeOf l, 0)

end

/-- JSON string escaping as Go `encoding/json` performs it by default:
quotation marks, backslashes and control characters are escaped, and so
are the HTML-sensitive characters. -/
def jsonEscapeChar (c : Char) : String :=
  if c = '"' then "\\\""
  else if c = '\\' then "\\\\"
  else if c = '\n' then "\\n"
  else if c = '\r' then "\\r"
  else if c = '\t' then "\\t"
  else if c = '<' then "\\u003c"
  else if c = '>' then "\\u003e"
  else if c = '&' then "\\u0026"
  else if c.toNat < 32 then
    "\\u00" ++ String.mk [Nat.digitChar (c.toNat / 16), Nat.digitChar (c.toNat % 16)]
  else String.mk [c]

/-- JSON string quoting. -/
def jsonQuote (s : String) : String :=
  "\"" ++ String.join (s.toList.map jsonEscapeChar) ++ "\""

/-- Newline plus the two-space indentation of `MarshalIndent(v, "", "  ")`
at the given depth. -/
def nlIndent (depth : Nat) : String :=
  "\n" ++ String.join (List.replicate depth "  ")

mutual

/-- Model of the value encoder of `encoding/json` under
`MarshalIndent(v, "", "  ")`: two-space indented arrays and objects,
objects with their keys sorted, and an encoding error on non-finite
floats. -/
def jsonEncode (depth : Nat) : GoValue → Except Unit String
  | .vbool b => .ok (if b then "true" else "false")
  | .vnum x => if x.isNaN || x.isInf then .error () else .ok (floatFmt x)
  | .vint n => .ok (toString n)
  | .vstr s => .ok (jsonQuote s)
  | .varr [] => .ok "[]"
  | .varr (x :: xs) =>
    match jsonEncodeItems (depth + 1) (x :: xs) with
    | .error () => .error ()
    | .ok items =>
      .ok ("[" ++ nlIndent (depth + 1) ++
        String.intercalate ("," ++ nlIndent (depth + 1)) items ++ nlIndent depth ++ "]")
  | .vobj [] => .ok "\x7b\x7d"
  | .vobj (kv :: kvs) =>
    match jsonEncodeFields (depth + 1) (kv :: kvs) with
    | .error () => .error ()
    | .ok fields =>
      let sorted := fields.mergeSort (fun a b => decide (a.1 ≤ b.1))
      let rendered := sorted.map (fun f => jsonQuote f.1 ++ ": " ++ f.2)
      .ok ("\x7b" ++ nlIndent (depth + 1) ++
        String.intercalate ("," ++ nlIndent (depth + 1)) rendered ++ nlIndent depth ++ "\x7d")

/-- Array items of the JSON encoder. -/
def jsonEncodeItems (depth : Nat) : List GoValue → Except Unit (List String)
  | [] => .ok []
  | x :: xs =>
    match jsonEncode depth x with
    | .error () => .error ()
    | .ok s =>
      match jsonEncodeItems depth xs with
      | .error () => .error ()
      | .ok rest => .ok (s :: rest)

/-- Object fields of the JSON encoder, keeping keys with their encoded
values for sorting. -/
def jsonEncodeFields (depth : Nat) : List (String × GoValue) → Except Unit (List (String × String))
  | [] => .ok []
  | kv :: kvs =>
    match jsonEncode depth kv.2 with
    | .error () => .error ()
    | .ok s =>
      match jsonEncodeFields depth kvs with
      | .error () => .error ()
      | .ok rest => .ok ((kv.1, s) :: rest)

end

/-- Model of `json.MarshalIndent(v, "", "  ")`. -/
def jsonMarshalIndent (v : GoValue) : Except Unit String :=
  jsonEncode 0 v

/-- Embedding of `luaToJSON` on an argument table: convert with
`luaTableToGo`, encode with two-space-indented JSON. -/
def luaToJSON (t : List (LuaValue × LuaValue)) : Except String String :=
  match jsonMarshalIndent (luaTableToGo t) with
  | .error () => .error "failed to marshal JSON"
  | .ok s => .ok s

/-- Embedding of `luaToYAML` on an argument table: the same conversion and
the same two-space-indented JSON encoding as `luaToJSON`, differing only in
the error message. -/
def luaToYAML (t : List (LuaValue × LuaValue)) : Except String String :=
  match jsonMarshalIndent (luaTableToGo t) with
  | .error () => .error "failed to marshal YAML"
  | .ok s => .ok s

/-!
Claim theorems.  Each theorem is stated over the definitions above, which
embed the Go sources; counterexamples evaluate the embedding at concrete
inputs.
-/

/-- C10: for every Lua table `t`, the script-facing `to_yaml(t)` returns
exactly the same string as `to_json(t)` — both serialize the
`luaTableToGo`-converted value with the two-space-indented JSON encoding —
so `to_yaml` never produces YAML-specific syntax. -/
theorem toYAML_eq_toJSON_on_success :
    ∀ (t : List (LuaValue × LuaValue)) (s : String),
      luaToYAML t = .ok s ↔ luaToJSON t = .ok s := by
  intro t s
  unfold luaToYAML luaToJSON
  cases jsonMarshalIndent (luaTableToGo t) <;> simp

/-- C2: write is denied (with a message naming the friendly path and the
allowed alternative) exactly when the resolver is rpack or map; read, stat
and readdir are denied exactly when the resolver is target; every other
resolver and operation pair passes the access-control hook. -/
theorem access_control_hook_rules :
    ∀ h : FSHandle,
      ((RPackAccessControlFSHook.Write h).isSome ↔
        (h.resolver = RPackResolver ∨ h.resolver = MapResolver)) ∧
      (h.resolver = RPackResolver →
        RPackAccessControlFSHook.Write h =
          some ("Not allowed to write ".toList ++ h.friendlyPath ++
            ", use `temp` instead".toList)) ∧
      (h.resolver = MapResolver →
        RPackAccessControlFSHook.Write h =
          some ("Not allowed to write ".toList ++ h.friendlyPath ++
            ", use `target` instead".toList)) ∧
      ((RPackAccessControlFSHook.Read h).isSome ↔ h.resolver = TargetResolver) ∧
      (h.resolver = TargetResolver →
        RPackAccessControlFSHook.Read h =
          some ("Not allowed to read ".toList ++ h.friendlyPath ++
            " (no access to read from target directory, use 'rpack:' instead)".toList)) ∧
      ((RPackAccessControlFSHook.Stat h).isSome ↔ h.resolver = TargetResolver) ∧
      ((RPackAccessControlFSHook.ReadDir h).isSome ↔ h.resolver = TargetResolver) := by
  intro h
  unfold RPackAccessControlFSHook.Write RPackAccessControlFSHook.Read
    RPackAccessControlFSHook.Stat RPackAccessControlFSHook.ReadDir
  by_cases h1 : h.resolver = RPackResolver <;>
    by_cases h2 : h.resolver = MapResolver <;>
    by_cases h3 : h.resolver = TargetResolver <;>
    simp_all [RPackResolver, MapResolver, TargetResolver]

/-- Restriction of `RPackLockFile.Changes` to path lists: the filterMap of
each entry loop depends on the entry's path only. -/
theorem changes_filterMap_paths (files : List RPackLockFileFile) (qs : List GoStr) :
    files.filterMap (fun f => if f.Path ∈ qs then (none : Option GoStr) else some f.Path) =
      (files.map (·.Path)).filterMap (fun p => if p ∈ qs then (none : Option GoStr) else some p) := by
  induction files with
  | nil => simp
  | cons f rest ih => simp [List.filterMap_cons, ih]

/-- C9: the lockfile diff returns Added as exactly the paths of the new
lockfile absent from the old one and Removed as exactly the paths of the
old lockfile absent from the new one, comparing by path only — the
recorded checksums never influence the diff. -/
theorem lockfile_changes_diff :
    (∀ (newLF oldLF : RPackLockFile) (p : GoStr),
      (p ∈ (newLF.Changes oldLF).Added ↔
        p ∈ newLF.Files.map (·.Path) ∧ p ∉ oldLF.Files.map (·.Path)) ∧
      (p ∈ (newLF.Changes oldLF).Removed ↔
        p ∈ oldLF.Files.map (·.Path) ∧ p ∉ newLF.Files.map (·.Path))) ∧
    (∀ n1 n2 o1 o2 : RPackLockFile,
      n1.Files.map (·.Path) = n2.Files.map (·.Path) →
      o1.Files.map (·.Path) = o2.Files.map (·.Path) →
      n1.Changes o1 = n2.Changes o2) := by
  constructor
  · intro newLF oldLF p
    constructor
    · unfold RPackLockFile.Changes
      simp only [List.mem_filterMap]
      constructor
      · rintro ⟨f, hf, heq⟩
        by_cases hin : f.Path ∈ oldLF.Files.map (·.Path)
        · simp [hin] at heq
        · simp [hin] at heq
          subst heq
          exact ⟨List.mem_map_of_mem _ hf, hin⟩
      · rintro ⟨hnew, hold⟩
        obtain ⟨f, hf, rfl⟩ := List.mem_map.mp hnew
        exact ⟨f, hf, by simp [hold]⟩
    · unfold RPackLockFile.Changes
      simp only [List.mem_filterMap]
      constructor
      · rintro ⟨f, hf, heq⟩
        by_cases hin : f.Path ∈ newLF.Files.map (·.Path)
        · simp [hin] at heq
        · simp [hin] at heq
          subst heq
          exact ⟨List.mem_map_of_mem _ hf, hin⟩
      · rintro ⟨hold, hnew⟩
        obtain ⟨f, hf, rfl⟩ := List.mem_map.mp hold
        exact ⟨f, hf, by simp [hnew]⟩
  · intro n1 n2 o1 o2 hn ho
    unfold RPackLockFile.Changes
    dsimp only
    rw [changes_filterMap_paths, changes_filterMap_paths, changes_filterMap_paths,
      changes_filterMap_paths, hn, ho]

/-- Mapped input of the stat scenario: a user file `u.yaml` resolved to an
absolute path. -/
def statBugInput : RPackResolvedInput :=
  ⟨"in".toList, "u.yaml".toList, "/abs/u.yaml".toList, .file⟩

/-- Filesystem configuration of the stat scenario. -/
def statBugCfg : RPackFSCfg :=
  ⟨"/src".toList, "/run".toList, "/tmp".toList, [statBugInput]⟩

/-- Handle the map resolver produces for `map:in` under `statBugCfg`. -/
def statBugHandle : FSHandle :=
  ⟨"/abs/u.yaml".toList, "map:in".toList, MapResolver, "u.yaml".toList⟩

/-- Backing filesystem of the stat scenario: a regular file at the input's
resolved path. -/
def statBugWorld : GoStr → DiskEntry :=
  fun p => if p = "/abs/u.yaml".toList then .file "hello".toList else .missing

/-- C4: the `FS` and `FSHandle` interfaces declare `Stat() (exists, dir,
err)`, but the file-backed implementation returns the pair swapped — for an
existing regular file the mediated Stat yields `(false, true)` in the
declared `(exists, dir)` positions instead of `(true, false)`; only the
missing case `(false, false)` and (by accident) the directory case
`(true, true)` agree with the declaration. -/
theorem mediated_stat_swaps_exists_dir :
    (∀ (world : GoStr → DiskEntry) (f : FSHandle) (content : GoStr),
      (world f.absPath = .missing → FileBackedFSHandle.Stat world f = .ok (false, false)) ∧
      (world f.absPath = .file content → FileBackedFSHandle.Stat world f = .ok (false, true)) ∧
      (world f.absPath = .dir → FileBackedFSHandle.Stat world f = .ok (true, true))) ∧
    RPackFS.Stat statBugCfg RPackFSState.init statBugWorld "map:in".toList =
      .ok ((false, true), ⟨⟨[], [], [statBugHandle], []⟩, [⟨FSAccessType.stat, statBugHandle⟩]⟩) := by
  constructor
  · intro world f content
    refine ⟨?_, ?_, ?_⟩ <;> intro hw <;> simp [FileBackedFSHandle.Stat, hw]
  · decide

/-- C5 amended: with dry-run set, the commit phase returns successfully at
once — no checksum pass, no integrity gate, no overwrite gate, no renames,
no removals and no lockfile write — whatever the lockfile and disk state. -/
theorem dry_run_skips_commit :
    ∀ (force : Bool) (runPath execPath : GoStr) (records : List FSRecorderRecord)
      (staging : GoStr → Option GoStr) (oldLock : RPackLockFile) (disk : GoStr → DiskEntry),
      Executor.ExecCommit true force runPath execPath records staging oldLock disk =
        .ok ⟨[], [], none⟩ := by
  intro force runPath execPath records staging oldLock disk
  unfold Executor.ExecCommit
  simp

/-- Lockfile of the dry-run scenario: one entry whose recorded checksum no
longer matches the on-disk content. -/
def c5Lock : RPackLockFile :=
  ⟨"v1", [⟨"a.txt".toList, "sha256:old".toList⟩]⟩

/-- Disk of the dry-run scenario: `a.txt` exists with different content. -/
def c5Disk : GoStr → DiskEntry :=
  fun p => if p = "/exec/a.txt".toList then .file "new".toList else .missing

/-- C5 counterexample: on a run whose lockfile records a modified entry and
without force, the dry-run flag makes the commit phase succeed — the
integrity gate does not execute — while the same input without dry-run is
aborted by that very gate. -/
theorem dry_run_skips_integrity_gate :
    Executor.ExecCommit true false "/run".toList "/exec".toList [] (fun _ => none)
        c5Lock c5Disk = .ok ⟨[], [], none⟩ ∧
    (Executor.ExecCommit false false "/run".toList "/exec".toList [] (fun _ => none)
        c5Lock c5Disk).isOk = false := by
  decide

/-- Helper for C1: a pair scan over equal indirect target paths passes
exactly when no pair coincides. -/
theorem pairScan_none_iff (l w : List FSHandle) (mk : FSHandle → FSHandle → GoStr) :
    (l.findSome? (fun a => w.findSome? (fun b =>
        if a.indirectTargetPath = b.indirectTargetPath then some (mk a b) else none)) = none)
    ↔ ∀ a ∈ l, ∀ b ∈ w, a.indirectTargetPath ≠ b.indirectTargetPath := by
  simp [List.findSome?_eq_none_iff]

/-- Helper for C1: one readdir-against-write entry passes exactly when the
glob match returns a clean non-match. -/
theorem readDirEntry_none_iff (p w m1 m2 : GoStr) :
    (match goMatch p w with
      | .error () => some m1
      | .ok true => some m2
      | .ok false => (none : Option GoStr)) = none ↔ goMatch p w = .ok false := by
  cases h : goMatch p w with
  | error u => cases u; simp
  | ok v => cases v <;> simp

/-- Helper for C1: the readdir scan passes exactly when every pair's glob
match returns a clean non-match. -/
theorem readDirScan_none_iff (f : EnsurePure) :
    f.checkReadDirsWrites = none ↔
      ∀ dh ∈ f.ReadDirHandles, ∀ wh ∈ f.WriteHandles,
        goMatch (goJoin2 dh.indirectTargetPath ['*']) wh.indirectTargetPath = .ok false := by
  unfold EnsurePure.checkReadDirsWrites
  simp only [List.findSome?_eq_none_iff]
  constructor
  · intro hall dh hd wh hw
    have := hall dh hd wh hw
    rwa [readDirEntry_none_iff] at this
  · intro hall dh hd wh hw
    rw [readDirEntry_none_iff]
    exact hall dh hd wh hw

/-- C1 amended: the purity check passes exactly when no tracked read or
stat shares an indirect target path with a tracked write and every tracked
readdir's glob `D/*` yields a clean non-match against every tracked write
(a bad glob pattern built from a readdir path also fails the check); and
the hooks track nothing but map-resolver reads, readdirs and stats and
target-resolver writes. -/
theorem purity_check_characterization :
    (∀ s : EnsurePure,
      s.CheckConflicts = none ↔
        ((∀ rh ∈ s.ReadHandles, ∀ wh ∈ s.WriteHandles,
            rh.indirectTargetPath ≠ wh.indirectTargetPath) ∧
         (∀ sh ∈ s.StatHandles, ∀ wh ∈ s.WriteHandles,
            sh.indirectTargetPath ≠ wh.indirectTargetPath) ∧
         (∀ dh ∈ s.ReadDirHandles, ∀ wh ∈ s.WriteHandles,
            goMatch (goJoin2 dh.indirectTargetPath ['*']) wh.indirectTargetPath = .ok false))) ∧
    (∀ (s : EnsurePure) (h : FSHandle),
      (h.resolver ≠ MapResolver → s.Read h = s ∧ s.ReadDir h = s ∧ s.Stat h = s) ∧
      (h.resolver ≠ TargetResolver → s.Write h = s) ∧
      (h.resolver = MapResolver →
        s.Read h = { s with ReadHandles := s.ReadHandles ++ [h] } ∧
        s.ReadDir h = { s with ReadDirHandles := s.ReadDirHandles ++ [h] } ∧
        s.Stat h = { s with StatHandles := s.StatHandles ++ [h] }) ∧
      (h.resolver = TargetResolver →
        s.Write h = { s with WriteHandles := s.WriteHandles ++ [h] })) := by
  constructor
  · intro s
    have hRW : s.checkReadsWrites = none ↔
        ∀ rh ∈ s.ReadHandles, ∀ wh ∈ s.WriteHandles,
          rh.indirectTargetPath ≠ wh.indirectTargetPath := by
      unfold EnsurePure.checkReadsWrites
      exact pairScan_none_iff _ _ _
    have hSW : s.checkStatsWrites = none ↔
        ∀ sh ∈ s.StatHandles, ∀ wh ∈ s.WriteHandles,
          sh.indirectTargetPath ≠ wh.indirectTargetPath := by
      unfold EnsurePure.checkStatsWrites
      exact pairScan_none_iff _ _ _
    have hDW := readDirScan_none_iff s
    unfold EnsurePure.CheckConflicts
    cases hr : s.checkReadsWrites with
    | some e =>
      simp only []
      constructor
      · intro h
        simp at h
      · rintro ⟨h1, _, _⟩
        rw [hRW.mpr h1] at hr
        simp at hr
    | none =>
      have hr' := hRW.mp hr
      cases hs : s.checkStatsWrites with
      | some e =>
        simp only []
        constructor
        · intro h
          simp at h
        · rintro ⟨_, h2, _⟩
          rw [hSW.mpr h2] at hs
          simp at hs
      | none =>
        have hs' := hSW.mp hs
        simp only []
        rw [hDW]
        constructor
        · intro h3
          exact ⟨hr', hs', h3⟩
        · rintro ⟨_, _, h3⟩
          exact h3
  · intro s h
    refine ⟨?_, ?_, ?_, ?_⟩
    · intro hne
      unfold EnsurePure.Read EnsurePure.ReadDir EnsurePure.Stat
      simp [hne]
    · intro hne
      unfold EnsurePure.Write
      simp [hne]
    · intro heq
      unfold EnsurePure.Read EnsurePure.ReadDir EnsurePure.Stat
      simp [heq]
    · intro heq
      unfold EnsurePure.Write
      simp [heq]

/-- Purity state of the bad-pattern scenario: one tracked readdir of a
mapped input named `[` and one tracked target write of `x`. -/
def pureBadState : EnsurePure :=
  ⟨[],
   [⟨"/m/[".toList, "map:[".toList, MapResolver, "[".toList⟩],
   [],
   [⟨"/run/x".toList, "x".toList, TargetResolver, "x".toList⟩]⟩

/-- C1 counterexample: a recorded state with no read, stat or readdir
overlap — the readdir path `[` yields the malformed glob `[/*`, which
matches nothing — on which the purity check nevertheless reports a
conflict, because `filepath.Match` returns `ErrBadPattern`. -/
theorem purity_check_fails_without_overlap :
    pureBadState.CheckConflicts ≠ none ∧
    (∀ rh ∈ pureBadState.ReadHandles, ∀ wh ∈ pureBadState.WriteHandles,
      rh.indirectTargetPath ≠ wh.indirectTargetPath) ∧
    (∀ sh ∈ pureBadState.StatHandles, ∀ wh ∈ pureBadState.WriteHandles,
      sh.indirectTargetPath ≠ wh.indirectTargetPath) ∧
    (∀ dh ∈ pureBadState.ReadDirHandles, ∀ wh ∈ pureBadState.WriteHandles,
      goMatch (goJoin2 dh.indirectTargetPath ['*']) wh.indirectTargetPath ≠ .ok true) := by
  decide

/-- C3 amended: a friendly name that starts with none of the known
prefixes is claimed by the target resolver, whose empty prefix matches
every name — no name is ever left unresolved — and it resolves to a target
handle exactly when the cleaned name is relative and local, failing with a
path-validation error otherwise. -/
theorem unknown_prefix_claimed_by_target :
    ∀ (c : RPackFSCfg) (name : GoStr),
      "rpack:".toList.isPrefixOf name = false →
      "temp:".toList.isPrefixOf name = false →
      "map:".toList.isPrefixOf name = false →
      (FileBackedFSResolver.Resolve TargetResolver [] c.runPath name =
        some (c.resolveName name)) ∧
      (∀ e, c.resolveName name ≠ .error (.unresolved e)) ∧
      ((∃ h, c.resolveName name = .ok h ∧ h.resolver = TargetResolver) ↔
        (goIsAbs (goClean name) = false ∧ goIsLocal (goClean name) = true)) := by
  intro c name h1 h2 h3
  have e1 : cutPre name "rpack:".toList = none := by
    unfold cutPre
    rw [h1]
    simp
  have e2 : cutPre name "temp:".toList = none := by
    unfold cutPre
    rw [h2]
    simp
  have e3 : cutPre name "map:".toList = none := by
    unfold cutPre
    rw [h3]
    simp
  have e4 : cutPre name ([] : GoStr) = some name := by simp [cutPre]
  unfold RPackFSCfg.resolveName FileBackedFSResolver.Resolve MapFSResolver.Resolve
  rw [e1, e2, e3, e4]
  simp only [List.nil_append]
  by_cases habs : goIsAbs (goClean name) = true
  · simp [habs]
  · by_cases hloc : goIsLocal (goClean name) = true
    · simp [habs, hloc, NewFileBackedFSHandle]
    · simp [habs, hloc]

/-- Filesystem configuration of the unknown-prefix scenario. -/
def c3Cfg : RPackFSCfg :=
  ⟨"/src".toList, "/run".toList, "/tmp".toList, []⟩

/-- Handle the target resolver produces for `unknown:foo` under `c3Cfg`. -/
def c3Handle : FSHandle :=
  ⟨"/run/unknown:foo".toList, "unknown:foo".toList, TargetResolver, "unknown:foo".toList⟩

/-- C3 counterexample: the friendly name `unknown:foo` carries an unknown
prefix, yet it does not fail with a path-validation error — the target
resolver claims it as a relative path, and a mediated write through it
succeeds and lands in the staging tree. -/
theorem unknown_prefix_write_succeeds :
    c3Cfg.resolveName "unknown:foo".toList = .ok c3Handle ∧
    ((RPackFS.Write c3Cfg RPackFSState.init (fun _ => none) "unknown:foo".toList
        "data".toList).toOption.map (fun r => r.2 "/run/unknown:foo".toList)) =
      some (some "data".toList) := by
  decide

/-!
Lexical path theory for the resolver claims: the shape of `goClean`
output, its idempotence, and injectivity and locality of `goJoin2` on
cleaned relative local paths.
-/

/-- A plain path element: non-empty, not a dot element, and free of the
separator. -/
def PlainPart (x : GoStr) : Prop :=
  x ≠ [] ∧ x ≠ ['.'] ∧ x ≠ ['.', '.'] ∧ '/' ∉ x

theorem splitOnChar_cons_sep (c : Char) (cs : GoStr) :
    splitOnChar c (c :: cs) = [] :: splitOnChar c cs := by
  simp [splitOnChar]

theorem splitOnChar_cons_ne (c a : Char) (cs : GoStr) (h : ¬ a = c) :
    splitOnChar c (a :: cs) =
      match splitOnChar c cs with
      | [] => [[a]]
      | p :: ps => (a :: p) :: ps := by
  simp [splitOnChar, h]

theorem splitOnChar_ne_nil (c : Char) (s : GoStr) : splitOnChar c s ≠ [] := by
  cases s with
  | nil => simp [splitOnChar]
  | cons x xs =>
    unfold splitOnChar
    split
    · simp
    · split <;> simp

theorem splitOnChar_no_sep (c : Char) (s : GoStr) : ∀ x ∈ splitOnChar c s, c ∉ x := by
  induction s with
  | nil => simp [splitOnChar]
  | cons a as ih =>
    by_cases hac : a = c
    · subst hac
      rw [splitOnChar_cons_sep]
      intro x hx
      rcases List.mem_cons.mp hx with h | h
      · subst h; simp
      · exact ih x h
    · rw [splitOnChar_cons_ne c a as hac]
      match hsp : splitOnChar c as with
      | [] => exact absurd hsp (splitOnChar_ne_nil c as)
      | p :: ps =>
        intro x hx
        rcases List.mem_cons.mp hx with h | h
        · subst h
          intro hmem
          rcases List.mem_cons.mp hmem with h | h
          · exact hac h.symm
          · exact ih p (by simp [hsp]) h
        · exact ih x (by simp [hsp, h])

theorem join_split (c : Char) (s : GoStr) : joinWithChar c (splitOnChar c s) = s := by
  induction s with
  | nil => simp [splitOnChar, joinWithChar]
  | cons a as ih =>
    by_cases hac : a = c
    · subst hac
      rw [splitOnChar_cons_sep]
      match hsp : splitOnChar a as with
      | [] => exact absurd hsp (splitOnChar_ne_nil a as)
      | p :: ps =>
        rw [hsp] at ih
        simp [joinWithChar, ih]
    · rw [splitOnChar_cons_ne c a as hac]
      match hsp : splitOnChar c as with
      | [] => exact absurd hsp (splitOnChar_ne_nil c as)
      | p :: ps =>
        rw [hsp] at ih
        cases ps with
        | nil => simp_all [joinWithChar]
        | cons q qs => simp_all [joinWithChar]

theorem splitOnChar_of_no_sep (c : Char) (x : GoStr) (h : c ∉ x) :
    splitOnChar c x = [x] := by
  induction x with
  | nil => simp [splitOnChar]
  | cons a as ih =>
    have hac : ¬ a = c := by
      intro he
      exact h (by simp [he])
    rw [splitOnChar_cons_ne c a as hac]
    rw [ih (by intro hm; exact h (by simp [hm]))]

theorem splitOnChar_append (c : Char) (a b : GoStr) :
    splitOnChar c (a ++ c :: b) = splitOnChar c a ++ splitOnChar c b := by
  induction a with
  | nil => simp [splitOnChar_cons_sep, splitOnChar]
  | cons x xs ih =>
    by_cases hxc : x = c
    · subst hxc
      rw [List.cons_append, splitOnChar_cons_sep, splitOnChar_cons_sep, ih]
      simp
    · rw [List.cons_append, splitOnChar_cons_ne c x _ hxc, splitOnChar_cons_ne c x _ hxc, ih]
      match hsp : splitOnChar c xs with
      | [] => exact absurd hsp (splitOnChar_ne_nil c xs)
      | p :: ps => simp

theorem split_join (c : Char) (parts : List GoStr) (hne : parts ≠ [])
    (hf : ∀ x ∈ parts, c ∉ x) :
    splitOnChar c (joinWithChar c parts) = parts := by
  induction parts with
  | nil => exact absurd rfl hne
  | cons x xs ih =>
    cases xs with
    | nil =>
      simp only [joinWithChar]
      exact splitOnChar_of_no_sep c x (hf x (by simp))
    | cons y ys =>
      have hx : c ∉ x := hf x (by simp)
      have hstep : joinWithChar c (x :: y :: ys) = x ++ c :: joinWithChar c (y :: ys) := rfl
      rw [hstep, splitOnChar_append, splitOnChar_of_no_sep c x hx,
        ih (by simp) (fun z hz => hf z (by simp [hz]))]
      simp

theorem cleanStack_cons_drop (r : Bool) (acc : List GoStr) (x : GoStr) (ps : List GoStr)
    (h : x = [] ∨ x = ['.']) :
    cleanStack r acc (x :: ps) = cleanStack r acc ps := by
  rw [cleanStack.eq_def]
  simp only []
  rw [if_pos h]

theorem cleanStack_cons_dd (r : Bool) (acc : List GoStr) (ps : List GoStr) :
    cleanStack r acc (['.', '.'] :: ps) =
      match acc with
      | [] => cleanStack r (if r then [] else [['.', '.']]) ps
      | a :: rest =>
        if a = ['.', '.'] then cleanStack r (['.', '.'] :: a :: rest) ps
        else cleanStack r rest ps := by
  rw [cleanStack.eq_def]
  simp

theorem cleanStack_cons_plain (r : Bool) (acc : List GoStr) (x : GoStr) (ps : List GoStr)
    (h1 : ¬(x = [] ∨ x = ['.'])) (h2 : x ≠ ['.', '.']) :
    cleanStack r acc (x :: ps) = cleanStack r (x :: acc) ps := by
  rw [cleanStack.eq_def]
  simp only []
  rw [if_neg h1, if_neg h2]

theorem cleanStack_append (r : Bool) (xs ys : List GoStr) (acc : List GoStr) :
    cleanStack r acc (xs ++ ys) = cleanStack r (cleanStack r acc xs) ys := by
  induction xs generalizing acc with
  | nil => simp [cleanStack]
  | cons x xt ih =>
    by_cases h1 : x = [] ∨ x = ['.']
    · rw [List.cons_append, cleanStack_cons_drop r acc x _ h1,
        cleanStack_cons_drop r acc x _ h1, ih]
    · by_cases h2 : x = ['.', '.']
      · subst h2
        rw [List.cons_append, cleanStack_cons_dd, cleanStack_cons_dd]
        cases acc with
        | nil => exact ih _
        | cons a rest =>
          by_cases h3 : a = ['.', '.']
          · simp only [if_pos h3]
            exact ih _
          · simp only [if_neg h3]
            exact ih _
      · rw [List.cons_append, cleanStack_cons_plain r acc x _ h1 h2,
          cleanStack_cons_plain r acc x _ h1 h2, ih]

theorem cleanStack_plain (r : Bool) (acc : List GoStr) (xs : List GoStr)
    (h : ∀ x ∈ xs, PlainPart x) :
    cleanStack r acc xs = xs.reverse ++ acc := by
  induction xs generalizing acc with
  | nil => simp [cleanStack]
  | cons x xt ih =>
    obtain ⟨hne, hdot, hdd, _⟩ := h x (by simp)
    rw [cleanStack_cons_plain r acc x _ (by simp [hne, hdot]) hdd,
      ih _ (fun z hz => h z (by simp [hz]))]
    simp

/-- Shape of every stack `cleanStack` builds: plain elements above a run of
`..` elements, the latter only in relative paths. -/
def StackShape (rooted : Bool) (st : List GoStr) : Prop :=
  ∃ pl k, st = pl ++ List.replicate k ['.', '.'] ∧ (∀ x ∈ pl, PlainPart x) ∧
    (rooted = true → k = 0)

theorem stackShape_nil (rooted : Bool) : StackShape rooted [] :=
  ⟨[], 0, by simp, by simp, fun _ => rfl⟩

theorem cleanStack_shape (rooted : Bool) (parts : List GoStr)
    (hsf : ∀ x ∈ parts, '/' ∉ x) :
    ∀ st, StackShape rooted st → StackShape rooted (cleanStack rooted st parts) := by
  induction parts with
  | nil =>
    intro st hst
    simpa [cleanStack] using hst
  | cons x xt ih =>
    intro st hst
    by_cases h1 : x = [] ∨ x = ['.']
    · rw [cleanStack_cons_drop rooted st x _ h1]
      exact ih (fun z hz => hsf z (by simp [hz])) st hst
    · by_cases h2 : x = ['.', '.']
      · subst h2
        obtain ⟨pl, k, hsteq, hpl, hk⟩ := hst
        cases hstc : st with
        | nil =>
          rw [cleanStack_cons_dd]
          simp only []
          apply ih (fun z hz => hsf z (by simp [hz]))
          by_cases hr : rooted = true
          · rw [if_pos hr]
            exact stackShape_nil rooted
          · rw [if_neg hr]
            exact ⟨[], 1, by simp, by simp, fun h => absurd h hr⟩
        | cons a rest =>
          rw [cleanStack_cons_dd]
          simp only []
          rw [hstc] at hsteq
          by_cases h3 : a = ['.', '.']
          · rw [if_pos h3]
            apply ih (fun z hz => hsf z (by simp [hz]))
            have hpl_nil : pl = [] := by
              cases hplc : pl with
              | nil => rfl
              | cons p0 ps =>
                rw [hplc] at hsteq
                have hhead : a = p0 := by
                  simpa using congrArg List.head? hsteq
                have hplain := (hpl p0 (by simp [hplc])).2.2.1
                rw [← hhead] at hplain
                exact absurd h3 hplain
            rw [hpl_nil] at hsteq
            simp only [List.nil_append] at hsteq
            have hrooted : rooted ≠ true := by
              intro hr
              rw [hk hr] at hsteq
              simp at hsteq
            refine ⟨[], k + 1, ?_, by simp, fun h => absurd h hrooted⟩
            simp only [List.nil_append, List.replicate_succ]
            rw [← hsteq, h3]
          · rw [if_neg h3]
            apply ih (fun z hz => hsf z (by simp [hz]))
            cases hplc : pl with
            | nil =>
              rw [hplc] at hsteq
              simp only [List.nil_append] at hsteq
              cases k with
              | zero => simp at hsteq
              | succ k0 =>
                rw [List.replicate_succ] at hsteq
                have : a = ['.', '.'] := by
                  simpa using congrArg List.head? hsteq
                exact absurd this h3
            | cons p0 ps =>
              rw [hplc] at hsteq
              simp only [List.cons_append, List.cons.injEq] at hsteq
              exact ⟨ps, k, hsteq.2, fun z hz => hpl z (by simp [hplc, hz]), hk⟩
      · rw [cleanStack_cons_plain rooted st x _ h1 h2]
        apply ih (fun z hz => hsf z (by simp [hz]))
        obtain ⟨pl, k, hsteq, hpl, hk⟩ := hst
        refine ⟨x :: pl, k, by simp [hsteq], ?_, hk⟩
        intro z hz
        rcases List.mem_cons.mp hz with h | h
        · rw [h]
          exact ⟨by simpa using (not_or.mp h1).1, by simpa using (not_or.mp h1).2, h2,
            hsf x (by simp)⟩
        · exact hpl z h

theorem joinWithChar_ne_nil (xs : List GoStr) (hne : xs ≠ []) (h : ∀ x ∈ xs, x ≠ []) :
    joinWithChar '/' xs ≠ [] := by
  match xs with
  | [x] =>
    simpa [joinWithChar] using h x (by simp)
  | x :: y :: ys =>
    show x ++ '/' :: joinWithChar '/' (y :: ys) ≠ []
    simp

theorem joinWithChar_head (x : GoStr) (rest : List GoStr) (hx : x ≠ []) :
    (joinWithChar '/' (x :: rest)).head? = x.head? := by
  cases rest with
  | nil => simp [joinWithChar]
  | cons y ys =>
    show (x ++ '/' :: joinWithChar '/' (y :: ys)).head? = x.head?
    cases x with
    | nil => exact absurd rfl hx
    | cons a as => simp

theorem cleanStack_dd_run (k : Nat) : ∀ j : Nat,
    cleanStack false (List.replicate j ['.', '.']) (List.replicate k ['.', '.']) =
      List.replicate (k + j) ['.', '.'] := by
  induction k with
  | zero => intro j; simp [cleanStack]
  | succ k0 ih =>
    intro j
    rw [List.replicate_succ, cleanStack_cons_dd]
    cases j with
    | zero =>
      simp only [List.replicate_zero]
      have h1 := ih 1
      simp only [List.replicate_one] at h1
      simpa using h1
    | succ j0 =>
      simp only [List.replicate_succ]
      have h2 := ih (j0 + 2)
      have hrep : ['.', '.'] :: ['.', '.'] :: List.replicate j0 ['.', '.'] =
          List.replicate (j0 + 2) ['.', '.'] := by simp [List.replicate_succ]
      rw [if_pos trivial, hrep, h2]
      congr 1
      omega

theorem stackShape_elems (rooted : Bool) (st : List GoStr) (h : StackShape rooted st) :
    ∀ x ∈ st, x ≠ [] ∧ '/' ∉ x ∧ x ≠ ['.'] := by
  obtain ⟨pl, k, hsteq, hpl, _⟩ := h
  intro x hx
  rw [hsteq] at hx
  rcases List.mem_append.mp hx with h | h
  · obtain ⟨h1, h2, _, h4⟩ := hpl x h
    exact ⟨h1, h4, h2⟩
  · have : x = ['.', '.'] := List.eq_of_mem_replicate h
    subst this
    refine ⟨by simp, by simp, by simp⟩

theorem goClean_expand (p : GoStr) (hne : p ≠ []) :
    goClean p = renderClean (goIsAbs p) (cleanStack (goIsAbs p) [] (splitOnChar '/' p)) := by
  unfold goClean goIsAbs
  rw [if_neg hne]

theorem goClean_render (rooted : Bool) (st : List GoStr) (h : StackShape rooted st) :
    goClean (renderClean rooted st) = renderClean rooted st := by
  obtain ⟨pl, k, hsteq, hpl, hk⟩ := h
  have helems := stackShape_elems rooted st ⟨pl, k, hsteq, hpl, hk⟩
  cases hstc : st with
  | nil =>
    cases rooted with
    | true =>
      have hr : renderClean true ([] : List GoStr) = ['/'] := by
        simp [renderClean, joinWithChar]
      rw [hr]
      decide
    | false =>
      have hr : renderClean false ([] : List GoStr) = ['.'] := by
        simp [renderClean, joinWithChar]
      rw [hr]
      decide
  | cons s0 srest =>
    rw [← hstc]
    have hstne : st ≠ [] := by simp [hstc]
    have hrevne : st.reverse ≠ [] := by simp [hstc]
    have hrevel : ∀ x ∈ st.reverse, x ≠ [] := by
      intro x hx
      exact (helems x (List.mem_reverse.mp hx)).1
    have hrevsf : ∀ x ∈ st.reverse, '/' ∉ x := by
      intro x hx
      exact (helems x (List.mem_reverse.mp hx)).2.1
    have hbodyne : joinWithChar '/' st.reverse ≠ [] :=
      joinWithChar_ne_nil st.reverse hrevne hrevel
    have hbodyhead : (joinWithChar '/' st.reverse).head? ≠ some '/' := by
      match hrev : st.reverse, hrevne with
      | r0 :: rrest, _ =>
        rw [joinWithChar_head r0 rrest (hrevel r0 (by rw [hrev]; simp))]
        have hr0 : r0 ∈ st.reverse := by rw [hrev]; simp
        have hsf := hrevsf r0 hr0
        have hne := hrevel r0 hr0
        cases r0 with
        | nil => exact absurd rfl hne
        | cons c cs =>
          simp only [List.head?_cons, ne_eq, Option.some.injEq]
          intro hcs
          exact hsf (by simp [hcs])
    have hsplitbody : splitOnChar '/' (joinWithChar '/' st.reverse) = st.reverse :=
      split_join '/' st.reverse hrevne hrevsf
    cases rooted with
    | true =>
      have hk0 : k = 0 := hk rfl
      rw [hk0] at hsteq
      simp only [List.replicate_zero, List.append_nil] at hsteq
      have hrender : renderClean true st = '/' :: joinWithChar '/' st.reverse := by
        simp [renderClean]
      have habs : goIsAbs ('/' :: joinWithChar '/' st.reverse) = true := by
        simp [goIsAbs]
      rw [hrender, goClean_expand _ (by simp), habs]
      rw [splitOnChar_cons_sep, hsplitbody]
      rw [cleanStack_cons_drop _ _ _ _ (by simp)]
      have hplrev : ∀ x ∈ st.reverse, PlainPart x := by
        intro x hx
        exact hpl x (by rw [← hsteq]; exact List.mem_reverse.mp hx)
      rw [cleanStack_plain true [] st.reverse hplrev]
      simp [hrender]
    | false =>
      have hrender : renderClean false st = joinWithChar '/' st.reverse := by
        simp [renderClean, hbodyne]
      have habs : goIsAbs (joinWithChar '/' st.reverse) = false := by
        simp [goIsAbs, hbodyhead]
      rw [hrender, goClean_expand _ hbodyne, habs]
      rw [hsplitbody]
      have hrevsplit : st.reverse = List.replicate k ['.', '.'] ++ pl.reverse := by
        rw [hsteq]
        simp
      rw [hrevsplit, cleanStack_append]
      have hdd : cleanStack false [] (List.replicate k ['.', '.']) =
          List.replicate k ['.', '.'] := by
        have := cleanStack_dd_run k 0
        simpa using this
      rw [hdd, cleanStack_plain false _ pl.reverse (by
        intro x hx
        exact hpl x (List.mem_reverse.mp hx))]
      simp only [List.reverse_reverse]
      rw [← hsteq, hrender, ← hrevsplit]

theorem goClean_shape (p : GoStr) ( _hne : p ≠ []) :
    StackShape (goIsAbs p) (cleanStack (goIsAbs p) [] (splitOnChar '/' p)) :=
  cleanStack_shape (goIsAbs p) (splitOnChar '/' p) (splitOnChar_no_sep '/' p) []
    (stackShape_nil _)

theorem goClean_idem (p : GoStr) : goClean (goClean p) = goClean p := by
  by_cases hne : p = []
  · subst hne
    decide
  · rw [goClean_expand p hne]
    exact goClean_render _ _ (goClean_shape p hne)

theorem joinWithChar_cons_cons (c : Char) (x y : GoStr) (rest : List GoStr) :
    joinWithChar c (x :: y :: rest) = x ++ c :: joinWithChar c (y :: rest) := rfl

theorem joinWithChar_cons_ne (c : Char) (x : GoStr) (rest : List GoStr) (h : rest ≠ []) :
    joinWithChar c (x :: rest) = x ++ c :: joinWithChar c rest := by
  cases rest with
  | nil => exact absurd rfl h
  | cons y ys => rfl

theorem joinWithChar_append (c : Char) (A B : List GoStr) (hA : A ≠ []) (hB : B ≠ []) :
    joinWithChar c (A ++ B) = joinWithChar c A ++ c :: joinWithChar c B := by
  induction A with
  | nil => exact absurd rfl hA
  | cons x xs ih =>
    cases xs with
    | nil =>
      cases B with
      | nil => exact absurd rfl hB
      | cons b bs =>
        rw [List.singleton_append, joinWithChar_cons_cons]
        rfl
    | cons y ys =>
      rw [List.cons_append, joinWithChar_cons_ne c x _ (by simp),
        joinWithChar_cons_ne c x (y :: ys) (by simp), ih (by simp)]
      simp

theorem joinWithChar_inj (c : Char) (A B : List GoStr) (hA : A ≠ []) (hB : B ≠ [])
    (hfa : ∀ x ∈ A, c ∉ x) (hfb : ∀ x ∈ B, c ∉ x)
    (h : joinWithChar c A = joinWithChar c B) : A = B := by
  have h1 := split_join c A hA hfa
  rw [← h1, h, split_join c B hB hfb]

theorem goIsAbs_append (r s : GoStr) (hr : r ≠ []) : goIsAbs (r ++ s) = goIsAbs r := by
  unfold goIsAbs
  cases r with
  | nil => exact absurd rfl hr
  | cons a as => simp

theorem goIsLocal_of_fixed (p : GoStr) (hne : p ≠ []) (habs : goIsAbs p = false)
    (hfix : goClean p = p) :
    goIsLocal p = decide (¬ p = ['.', '.'] ∧ ¬ (['.', '.', '/'].isPrefixOf p)) := by
  unfold goIsLocal
  rw [if_neg (by rw [habs]; simp [hne])]
  simp only [hfix, ite_self]

/-- The invariant every resolver establishes on the paths it accepts: the
path is already clean, relative and local. -/
def CleanRelLocal (p : GoStr) : Prop :=
  goClean p = p ∧ goIsAbs p = false ∧ goIsLocal p = true

instance (p : GoStr) : Decidable (CleanRelLocal p) :=
  inferInstanceAs (Decidable (_ ∧ _ ∧ _))

theorem renderClean_false_ne (st : List GoStr) (hb : joinWithChar '/' st.reverse ≠ []) :
    renderClean false st = joinWithChar '/' st.reverse := by
  unfold renderClean
  simp [hb]

theorem splitOnChar_dd_slash (t : GoStr) :
    splitOnChar '/' ('.' :: '.' :: '/' :: t) = ['.', '.'] :: splitOnChar '/' t := by
  simp [splitOnChar]

theorem cleanRelLocal_iff (p : GoStr) :
    CleanRelLocal p ↔
      (p = ['.'] ∨
        (p ≠ [] ∧ goIsAbs p = false ∧ ∀ x ∈ splitOnChar '/' p, PlainPart x)) := by
  constructor
  · rintro ⟨hfix, habs, hloc⟩
    have hne : p ≠ [] := by
      intro he; rw [he] at hfix; exact absurd hfix (by decide)
    have hrender : renderClean false (cleanStack false [] (splitOnChar '/' p)) = p := by
      have hexp := goClean_expand p hne
      rw [habs] at hexp
      rw [← hexp]; exact hfix
    have hloc2 : ¬ p = ['.', '.'] ∧ ¬ (['.', '.', '/'].isPrefixOf p) := by
      have hl := goIsLocal_of_fixed p hne habs hfix
      rw [hl] at hloc
      exact of_decide_eq_true hloc
    have hsh := goClean_shape p hne
    rw [habs] at hsh
    obtain ⟨pl, k, hst, hpl, -⟩ := hsh
    cases k with
    | succ k0 =>
      exfalso
      have hstrev : (cleanStack false [] (splitOnChar '/' p)).reverse =
          ['.', '.'] :: (List.replicate k0 ['.', '.'] ++ pl.reverse) := by
        rw [hst, List.reverse_append, List.reverse_replicate, List.replicate_succ]
        simp
      have hbne : joinWithChar '/'
          (['.', '.'] :: (List.replicate k0 ['.', '.'] ++ pl.reverse)) ≠ [] := by
        apply joinWithChar_ne_nil _ (by simp)
        intro x hx
        rcases List.mem_cons.mp hx with h | h
        · rw [h]; simp
        · rcases List.mem_append.mp h with h | h
          · rw [List.eq_of_mem_replicate h]; simp
          · exact (hpl x (List.mem_reverse.mp h)).1
      have hform : renderClean false (cleanStack false [] (splitOnChar '/' p)) =
          joinWithChar '/' (['.', '.'] :: (List.replicate k0 ['.', '.'] ++ pl.reverse)) := by
        unfold renderClean
        rw [hstrev]
        simp [hbne]
      have hp : p = joinWithChar '/'
          (['.', '.'] :: (List.replicate k0 ['.', '.'] ++ pl.reverse)) :=
        hrender.symm.trans hform
      rcases hrr : List.replicate k0 ['.', '.'] ++ pl.reverse with - | ⟨r, rs⟩
      · rw [hrr] at hp
        exact hloc2.1 (by simpa [joinWithChar] using hp)
      · rw [hrr, joinWithChar_cons_cons] at hp
        exact hloc2.2 (by rw [hp]; simp [List.isPrefixOf])
    | zero =>
      rw [List.replicate_zero, List.append_nil] at hst
      by_cases hplnil : pl = []
      · left
        rw [← hrender, hst, hplnil]
        rfl
      · right
        refine ⟨hne, habs, ?_⟩
        have hbne2 : joinWithChar '/' pl.reverse ≠ [] :=
          joinWithChar_ne_nil _ (by simp [hplnil])
            (fun x hx => (hpl x (List.mem_reverse.mp hx)).1)
        have hp : p = joinWithChar '/' pl.reverse := by
          rw [← hrender, hst, renderClean_false_ne]
          exact hbne2
        have hsplit : splitOnChar '/' p = pl.reverse := by
          rw [hp]
          exact split_join '/' pl.reverse (by simp [hplnil])
            (fun x hx => (hpl x (List.mem_reverse.mp hx)).2.2.2)
        rw [hsplit]
        intro x hx
        exact hpl x (List.mem_reverse.mp hx)
  · rintro (hdot | ⟨hne, habs, hparts⟩)
    · rw [hdot]; decide
    · have hfix : goClean p = p := by
        rw [goClean_expand p hne, habs, cleanStack_plain false [] _ hparts,
          List.append_nil, renderClean_false_ne]
        · rw [List.reverse_reverse, join_split]
        · rw [List.reverse_reverse, join_split]
          exact hne
      refine ⟨hfix, habs, ?_⟩
      rw [goIsLocal_of_fixed p hne habs hfix]
      apply decide_eq_true
      constructor
      · intro hdd
        have hmem : ['.', '.'] ∈ splitOnChar '/' p := by
          rw [hdd, splitOnChar_of_no_sep '/' ['.', '.'] (by decide)]
          simp
        exact (hparts _ hmem).2.2.1 rfl
      · intro hpre
        obtain ⟨t, ht⟩ := List.isPrefixOf_iff_prefix.mp hpre
        have hp2 : p = '.' :: '.' :: '/' :: t := by
          rw [← ht]; rfl
        have hmem : ['.', '.'] ∈ splitOnChar '/' p := by
          rw [hp2, splitOnChar_dd_slash]
          simp
        exact (hparts _ hmem).2.2.1 rfl

theorem goJoin2_stack (r b : GoStr) (hr : r ≠ []) (hb : CleanRelLocal b) :
    goJoin2 r b = renderClean (goIsAbs r)
      ((if b = ['.'] then [] else (splitOnChar '/' b).reverse) ++
        cleanStack (goIsAbs r) [] (splitOnChar '/' r)) := by
  have hrne : r ++ '/' :: b ≠ [] := by simp [hr]
  unfold goJoin2
  rw [if_neg hr, goClean_expand _ hrne, goIsAbs_append r ('/' :: b) hr, splitOnChar_append,
    cleanStack_append]
  by_cases hdot : b = ['.']
  · rw [if_pos hdot, hdot, splitOnChar_of_no_sep '/' ['.'] (by decide),
      cleanStack_cons_drop _ _ _ _ (by simp)]
    rfl
  · rw [if_neg hdot]
    rcases (cleanRelLocal_iff b).mp hb with h | ⟨hbne, hbabs, hparts⟩
    · exact absurd h hdot
    · rw [cleanStack_plain _ _ _ hparts]

theorem renderClean_true (st : List GoStr) :
    renderClean true st = '/' :: joinWithChar '/' st.reverse := by
  unfold renderClean
  simp

theorem renderClean_false_eq (st : List GoStr) :
    renderClean false st = (if joinWithChar '/' st.reverse = [] then ['.']
      else joinWithChar '/' st.reverse) := by
  unfold renderClean
  simp

theorem renderClean_inj (ro : Bool) (st1 st2 : List GoStr)
    (h1 : ∀ x ∈ st1, x ≠ [] ∧ '/' ∉ x ∧ x ≠ ['.'])
    (h2 : ∀ x ∈ st2, x ≠ [] ∧ '/' ∉ x ∧ x ≠ ['.'])
    (he : renderClean ro st1 = renderClean ro st2) : st1 = st2 := by
  have hj : ∀ st : List GoStr, (∀ x ∈ st, x ≠ [] ∧ '/' ∉ x ∧ x ≠ ['.']) → st ≠ [] →
      joinWithChar '/' st.reverse ≠ [] := by
    intro st h hne
    exact joinWithChar_ne_nil _ (by simpa using hne)
      (fun x hx => (h x (List.mem_reverse.mp hx)).1)
  have hmain : st1 ≠ [] → st2 ≠ [] →
      joinWithChar '/' st1.reverse = joinWithChar '/' st2.reverse → st1 = st2 := by
    intro hne1 hne2 hjeq
    have hrr := joinWithChar_inj '/' st1.reverse st2.reverse (by simpa using hne1)
      (by simpa using hne2) (fun x hx => (h1 x (List.mem_reverse.mp hx)).2.1)
      (fun x hx => (h2 x (List.mem_reverse.mp hx)).2.1) hjeq
    have := congrArg List.reverse hrr
    simpa using this
  cases ro with
  | true =>
    rw [renderClean_true, renderClean_true] at he
    rw [List.cons.injEq] at he
    obtain ⟨-, hjeq⟩ := he
    by_cases hne1 : st1 = []
    · by_cases hne2 : st2 = []
      · rw [hne1, hne2]
      · exact absurd (by rw [← hjeq, hne1]; rfl) (hj st2 h2 hne2)
    · by_cases hne2 : st2 = []
      · exact absurd (by rw [hjeq, hne2]; rfl) (hj st1 h1 hne1)
      · exact hmain hne1 hne2 hjeq
  | false =>
    rw [renderClean_false_eq, renderClean_false_eq] at he
    by_cases hne1 : st1 = []
    · by_cases hne2 : st2 = []
      · rw [hne1, hne2]
      · exfalso
        rw [hne1, if_pos (by rfl), if_neg (hj st2 h2 hne2)] at he
        have hsp := split_join '/' st2.reverse (by simpa using hne2)
          (fun x hx => (h2 x (List.mem_reverse.mp hx)).2.1)
        rw [← he, splitOnChar_of_no_sep '/' ['.'] (by decide)] at hsp
        have hmem : ['.'] ∈ st2 := by
          rw [← List.mem_reverse, ← hsp]; simp
        exact (h2 _ hmem).2.2 rfl
    · by_cases hne2 : st2 = []
      · exfalso
        rw [hne2, if_neg (hj st1 h1 hne1), if_pos (by rfl)] at he
        have hsp := split_join '/' st1.reverse (by simpa using hne1)
          (fun x hx => (h1 x (List.mem_reverse.mp hx)).2.1)
        rw [he, splitOnChar_of_no_sep '/' ['.'] (by decide)] at hsp
        have hmem : ['.'] ∈ st1 := by
          rw [← List.mem_reverse, ← hsp]; simp
        exact (h1 _ hmem).2.2 rfl
      · rw [if_neg (hj st1 h1 hne1), if_neg (hj st2 h2 hne2)] at he
        exact hmain hne1 hne2 he

theorem cleanRelLocal_ne_nil (p : GoStr) (h : CleanRelLocal p) : p ≠ [] := by
  rcases (cleanRelLocal_iff p).mp h with hd | ⟨hne, -⟩
  · rw [hd]; simp
  · exact hne

theorem goJoin2_stack_elems (r b : GoStr) (hr : r ≠ []) (hb : CleanRelLocal b) :
    ∀ x ∈ ((if b = ['.'] then [] else (splitOnChar '/' b).reverse) ++
      cleanStack (goIsAbs r) [] (splitOnChar '/' r)),
      x ≠ [] ∧ '/' ∉ x ∧ x ≠ ['.'] := by
  intro x hx
  rcases List.mem_append.mp hx with h | h
  · by_cases hdot : b = ['.']
    · rw [if_pos hdot] at h; simp at h
    · rw [if_neg hdot] at h
      rcases (cleanRelLocal_iff b).mp hb with hd | ⟨-, -, hparts⟩
      · exact absurd hd hdot
      · obtain ⟨e1, e2, e3, e4⟩ := hparts x (List.mem_reverse.mp h)
        exact ⟨e1, e4, e2⟩
  · exact stackShape_elems _ _ (goClean_shape r hr) x h

theorem list_append_cancel_r {α : Type} (T1 T2 S : List α) (h : T1 ++ S = T2 ++ S) :
    T1 = T2 := by
  have hl : T1.length = T2.length := by
    have := congrArg List.length h
    simp at this
    omega
  exact (List.append_inj h hl).1

theorem goJoin2_inj (r b1 b2 : GoStr) (h1 : CleanRelLocal b1) (h2 : CleanRelLocal b2)
    (he : goJoin2 r b1 = goJoin2 r b2) : b1 = b2 := by
  have hb1ne := cleanRelLocal_ne_nil b1 h1
  have hb2ne := cleanRelLocal_ne_nil b2 h2
  by_cases hr : r = []
  · unfold goJoin2 at he
    rw [if_pos hr, if_pos hr, if_neg hb1ne, if_neg hb2ne, h1.1, h2.1] at he
    exact he
  · rw [goJoin2_stack r b1 hr h1, goJoin2_stack r b2 hr h2] at he
    have hstack := renderClean_inj _ _ _ (goJoin2_stack_elems r b1 hr h1)
      (goJoin2_stack_elems r b2 hr h2) he
    have hT := list_append_cancel_r _ _ _ hstack
    by_cases hd1 : b1 = ['.'] <;> by_cases hd2 : b2 = ['.']
    · rw [hd1, hd2]
    · exfalso
      rw [if_pos hd1, if_neg hd2] at hT
      exact splitOnChar_ne_nil '/' b2 (by simpa using hT.symm)
    · exfalso
      rw [if_neg hd1, if_pos hd2] at hT
      exact splitOnChar_ne_nil '/' b1 (by simpa using hT)
    · rw [if_neg hd1, if_neg hd2] at hT
      have hs : splitOnChar '/' b1 = splitOnChar '/' b2 := by
        have := congrArg List.reverse hT
        simpa using this
      rw [← join_split '/' b1, hs, join_split]

theorem crl_render_plain (st : List GoStr) (h : ∀ x ∈ st, PlainPart x) :
    CleanRelLocal (renderClean false st) := by
  by_cases hne : st = []
  · rw [hne]
    decide
  · have hbne : joinWithChar '/' st.reverse ≠ [] :=
      joinWithChar_ne_nil _ (by simpa using hne) (fun x hx => (h x (List.mem_reverse.mp hx)).1)
    rw [renderClean_false_ne st hbne]
    apply (cleanRelLocal_iff _).mpr
    right
    refine ⟨hbne, ?_, ?_⟩
    · obtain ⟨x, rest, hrev⟩ : ∃ x rest, st.reverse = x :: rest := by
        cases hrv : st.reverse with
        | nil => exact absurd (by simpa using hrv) hne
        | cons a as => exact ⟨a, as, rfl⟩
      have hxst : x ∈ st := List.mem_reverse.mp (by rw [hrev]; simp)
      obtain ⟨hxne, -, -, hxsf⟩ := h x hxst
      unfold goIsAbs
      rw [hrev, joinWithChar_head x rest hxne]
      cases x with
      | nil => exact absurd rfl hxne
      | cons c cs =>
        simp only [List.head?_cons]
        have hc : c ≠ '/' := fun hc => hxsf (by simp [hc])
        simp [hc]
    · rw [split_join '/' st.reverse (by simpa using hne)
        (fun x hx => (h x (List.mem_reverse.mp hx)).2.2.2)]
      intro x hx
      exact h x (List.mem_reverse.mp hx)

theorem goJoin2_crl (a b : GoStr) (ha : CleanRelLocal a) (hb : CleanRelLocal b) :
    CleanRelLocal (goJoin2 a b) := by
  have hane := cleanRelLocal_ne_nil a ha
  rw [goJoin2_stack a b hane hb, ha.2.1]
  apply crl_render_plain
  intro x hx
  rcases List.mem_append.mp hx with h | h
  · by_cases hdot : b = ['.']
    · rw [if_pos hdot] at h; simp at h
    · rw [if_neg hdot] at h
      rcases (cleanRelLocal_iff b).mp hb with hd | ⟨-, -, hparts⟩
      · exact absurd hd hdot
      · exact hparts x (List.mem_reverse.mp h)
  · rcases (cleanRelLocal_iff a).mp ha with hd | ⟨-, -, hparts⟩
    · rw [hd] at h
      rw [show cleanStack false [] (splitOnChar '/' ['.']) = [] from by decide] at h
      simp at h
    · rw [cleanStack_plain false [] _ hparts, List.append_nil] at h
      exact hparts x (List.mem_reverse.mp h)

theorem goJoin2_fixes (r b : GoStr) (hb : CleanRelLocal b) :
    goClean (goJoin2 r b) = goJoin2 r b := by
  have hbne := cleanRelLocal_ne_nil b hb
  unfold goJoin2
  by_cases hr : r = []
  · rw [if_pos hr, if_neg hbne]
    exact goClean_idem b
  · rw [if_neg hr]
    exact goClean_idem _

theorem fileResolver_err (rname : String) (pre baseDir name suffix : GoStr)
    (hcut : cutPre name pre = some suffix)
    (hbad : goIsAbs (goClean suffix) = true ∨ goIsLocal (goClean suffix) = false) :
    ∃ msg, FileBackedFSResolver.Resolve rname pre baseDir name =
      some (.error (.pathErr msg)) := by
  unfold FileBackedFSResolver.Resolve
  rw [hcut]
  simp only []
  by_cases habs : goIsAbs (goClean suffix) = true
  · rw [if_pos habs]
    exact ⟨_, rfl⟩
  · have hloc : goIsLocal (goClean suffix) = false := by
      rcases hbad with h | h
      · exact absurd h habs
      · exact h
    rw [if_neg habs, if_pos (by simp [hloc])]
    exact ⟨_, rfl⟩

theorem mapResolver_err (rname : String) (pre : GoStr) (ris : List RPackResolvedInput)
    (name suffix : GoStr) (hcut : cutPre name pre = some suffix)
    (hbad : goIsAbs (goClean suffix) = true ∨ goIsLocal (goClean suffix) = false) :
    ∃ msg, MapFSResolver.Resolve rname pre ris name = some (.error (.pathErr msg)) := by
  unfold MapFSResolver.Resolve
  rw [hcut]
  simp only []
  by_cases habs : goIsAbs (goClean suffix) = true
  · rw [if_pos habs]
    exact ⟨_, rfl⟩
  · have hloc : goIsLocal (goClean suffix) = false := by
      rcases hbad with h | h
      · exact absurd h habs
      · exact h
    rw [if_neg habs, if_pos (by simp [hloc])]
    exact ⟨_, rfl⟩

theorem fileResolver_ok (rname : String) (pre baseDir name : GoStr) (h : FSHandle)
    (hok : FileBackedFSResolver.Resolve rname pre baseDir name = some (.ok h)) :
    CleanRelLocal h.indirectTargetPath ∧
      h.absPath = goJoin2 baseDir h.indirectTargetPath ∧ h.resolver = rname := by
  unfold FileBackedFSResolver.Resolve at hok
  cases hcut : cutPre name pre with
  | none => rw [hcut] at hok; exact absurd hok (by simp)
  | some suffix =>
    rw [hcut] at hok
    simp only [] at hok
    by_cases habs : goIsAbs (goClean suffix) = true
    · rw [if_pos habs] at hok
      exact absurd hok (by simp)
    · rw [if_neg habs] at hok
      by_cases hloc : goIsLocal (goClean suffix) = true
      · rw [if_neg (by simp [hloc])] at hok
        simp only [Option.some.injEq, Except.ok.injEq] at hok
        rw [← hok]
        exact ⟨⟨goClean_idem suffix, by simpa using habs, hloc⟩, rfl, rfl⟩
      · rw [if_pos hloc] at hok
        exact absurd hok (by simp)

theorem mapResolver_ok (rname : String) (pre : GoStr) (ris : List RPackResolvedInput)
    (name : GoStr) (h : FSHandle)
    (hwf : ∀ ri ∈ ris, CleanRelLocal ri.UserPath)
    (hok : MapFSResolver.Resolve rname pre ris name = some (.ok h)) :
    CleanRelLocal h.indirectTargetPath ∧ h.resolver = rname := by
  unfold MapFSResolver.Resolve at hok
  cases hcut : cutPre name pre with
  | none => rw [hcut] at hok; exact absurd hok (by simp)
  | some suffix =>
    rw [hcut] at hok
    simp only [] at hok
    by_cases habs : goIsAbs (goClean suffix) = true
    · rw [if_pos habs] at hok
      exact absurd hok (by simp)
    rw [if_neg habs] at hok
    by_cases hloc : goIsLocal (goClean suffix) = true
    swap
    · rw [if_pos hloc] at hok
      exact absurd hok (by simp)
    rw [if_neg (by simp [hloc])] at hok
    cases hfind : ris.find? (fun ri => ri.Name = (strCut '/' suffix).1) with
    | none =>
      rw [hfind] at hok
      exact absurd hok (by simp)
    | some ri =>
      rw [hfind] at hok
      simp only [] at hok
      have hri : ri ∈ ris := List.mem_of_find?_eq_some hfind
      have hcrlUser := hwf ri hri
      cases hfound : (strCut '/' suffix).2.2 with
      | false =>
        rw [hfound] at hok
        simp only [Bool.false_eq_true, if_false] at hok
        simp only [Option.some.injEq, Except.ok.injEq] at hok
        rw [← hok]
        exact ⟨hcrlUser, rfl⟩
      | true =>
        rw [hfound, if_pos rfl] at hok
        by_cases htyp : ri.Typ ≠ RPackInputType.directory
        · rw [if_pos htyp] at hok
          exact absurd hok (by simp)
        rw [if_neg htyp] at hok
        by_cases habs2 : goIsAbs (goClean (strCut '/' suffix).2.1) = true
        · rw [if_pos habs2] at hok
          exact absurd hok (by simp)
        rw [if_neg habs2] at hok
        by_cases hloc2 : goIsLocal (goClean (strCut '/' suffix).2.1) = true
        swap
        · rw [if_pos hloc2] at hok
          exact absurd hok (by simp)
        rw [if_neg (by simp [hloc2])] at hok
        simp only [Option.some.injEq, Except.ok.injEq] at hok
        rw [← hok]
        exact ⟨goJoin2_crl _ _ hcrlUser
          ⟨goClean_idem _, by simpa using habs2, hloc2⟩, rfl⟩

theorem resolveName_ok_crl (c : RPackFSCfg) (name : GoStr) (h : FSHandle)
    (hwf : ∀ ri ∈ c.resolvedInputs, CleanRelLocal ri.UserPath)
    (hok : c.resolveName name = .ok h) :
    CleanRelLocal h.indirectTargetPath := by
  unfold RPackFSCfg.resolveName at hok
  cases h1 : FileBackedFSResolver.Resolve RPackResolver "rpack:".toList c.defSourcePath name with
  | some r =>
    rw [h1] at hok
    subst hok
    exact (fileResolver_ok _ _ _ _ _ h1).1
  | none =>
    rw [h1] at hok
    cases h2 : FileBackedFSResolver.Resolve TempResolver "temp:".toList c.tempPath name with
    | some r =>
      rw [h2] at hok
      subst hok
      exact (fileResolver_ok _ _ _ _ _ h2).1
    | none =>
      rw [h2] at hok
      cases h3 : MapFSResolver.Resolve MapResolver "map:".toList c.resolvedInputs name with
      | some r =>
        rw [h3] at hok
        subst hok
        exact (mapResolver_ok _ _ _ _ _ hwf h3).1
      | none =>
        rw [h3] at hok
        cases h4 : FileBackedFSResolver.Resolve TargetResolver [] c.runPath name with
        | some r =>
          rw [h4] at hok
          subst hok
          exact (fileResolver_ok _ _ _ _ _ h4).1
        | none =>
          rw [h4] at hok
          exact absurd hok (by simp)

/-- C7: after trimming the resolver prefix, a cleaned remainder that is
absolute or escapes its base via `..` makes every file-backed or map
resolution fail with a path-validation error before any handle exists, so
no operation can run on it; conversely every handle a file-backed resolver
produces carries a cleaned, relative, local path joined under its base
directory, every handle `resolveName` produces carries a cleaned, relative,
local `indirect_target_path` (given well-formed map inputs), and a
resolution error is returned unchanged by the write, read and stat
operations. -/
theorem uniform_path_rules :
    (∀ (rname : String) (pre baseDir name suffix : GoStr),
        cutPre name pre = some suffix →
        (goIsAbs (goClean suffix) = true ∨ goIsLocal (goClean suffix) = false) →
        ∃ msg, FileBackedFSResolver.Resolve rname pre baseDir name =
          some (.error (.pathErr msg))) ∧
    (∀ (rname : String) (pre : GoStr) (ris : List RPackResolvedInput) (name suffix : GoStr),
        cutPre name pre = some suffix →
        (goIsAbs (goClean suffix) = true ∨ goIsLocal (goClean suffix) = false) →
        ∃ msg, MapFSResolver.Resolve rname pre ris name =
          some (.error (.pathErr msg))) ∧
    (∀ (rname : String) (pre baseDir name : GoStr) (h : FSHandle),
        FileBackedFSResolver.Resolve rname pre baseDir name = some (.ok h) →
        CleanRelLocal h.indirectTargetPath ∧
          h.absPath = goJoin2 baseDir h.indirectTargetPath) ∧
    (∀ (c : RPackFSCfg) (name : GoStr) (h : FSHandle),
        (∀ ri ∈ c.resolvedInputs, CleanRelLocal ri.UserPath) →
        c.resolveName name = .ok h →
        CleanRelLocal h.indirectTargetPath) ∧
    (∀ (c : RPackFSCfg) (st : RPackFSState) (disk : GoStr → Option GoStr)
        (world : GoStr → DiskEntry) (name b : GoStr) (e : FSErr),
        c.resolveName name = .error e →
        RPackFS.Write c st disk name b = .error e ∧
        RPackFS.Read c st disk name = .error e ∧
        RPackFS.Stat c st world name = .error e) := by
  refine ⟨fileResolver_err, mapResolver_err, ?_, resolveName_ok_crl, ?_⟩
  · intro rname pre baseDir name h hok
    obtain ⟨h1, h2, -⟩ := fileResolver_ok rname pre baseDir name h hok
    exact ⟨h1, h2⟩
  · intro c st disk world name b e hres
    refine ⟨?_, ?_, ?_⟩
    · unfold RPackFS.Write
      rw [hres]
    · unfold RPackFS.Read
      rw [hres]
    · unfold RPackFS.Stat
      rw [hres]

/-- Specification-side description of the dedup loop: keep the first
occurrence of each element, dropping later duplicates and anything already
seen. -/
def firstOccAux : List GoStr → List GoStr → List GoStr
  | _, [] => []
  | seen, x :: xs =>
    if x ∈ seen then firstOccAux seen xs else x :: firstOccAux (x :: seen) xs

/-- Specification-side first-occurrence dedup of a list. -/
def firstOcc (xs : List GoStr) : List GoStr := firstOccAux [] xs

theorem firstOccAux_mem (x : GoStr) : ∀ (xs seen : List GoStr),
    x ∈ firstOccAux seen xs ↔ (x ∈ xs ∧ x ∉ seen) := by
  intro xs
  induction xs with
  | nil => intro seen; simp [firstOccAux]
  | cons y ys ih =>
    intro seen
    simp only [firstOccAux]
    by_cases hy : y ∈ seen
    · rw [if_pos hy, ih seen]
      constructor
      · rintro ⟨hmx, hms⟩
        exact ⟨List.mem_cons_of_mem _ hmx, hms⟩
      · rintro ⟨hmx, hms⟩
        rcases List.mem_cons.mp hmx with h | h
        · exact absurd (by rw [h]; exact hy) hms
        · exact ⟨h, hms⟩
    · rw [if_neg hy]
      constructor
      · intro hm
        rcases List.mem_cons.mp hm with h | h
        · rw [h]
          exact ⟨List.mem_cons_self _ _, hy⟩
        · obtain ⟨hmx, hms⟩ := (ih _).mp h
          refine ⟨List.mem_cons_of_mem _ hmx, fun hc => hms (List.mem_cons_of_mem _ hc)⟩
      · rintro ⟨hmx, hms⟩
        rcases List.mem_cons.mp hmx with h | h
        · rw [h]
          exact List.mem_cons_self _ _
        · by_cases hxy : x = y
          · rw [hxy]
            exact List.mem_cons_self _ _
          · refine List.mem_cons_of_mem _ ((ih _).mpr ⟨h, ?_⟩)
            intro hc
            exact (List.mem_cons.mp hc).elim hxy hms

theorem firstOccAux_nodup : ∀ (xs seen : List GoStr), (firstOccAux seen xs).Nodup := by
  intro xs
  induction xs with
  | nil => intro seen; simp [firstOccAux]
  | cons y ys ih =>
    intro seen
    simp only [firstOccAux]
    by_cases hy : y ∈ seen
    · rw [if_pos hy]; exact ih seen
    · rw [if_neg hy]
      refine List.nodup_cons.mpr ⟨?_, ih _⟩
      intro hmem
      exact ((firstOccAux_mem y ys _).mp hmem).2 (List.mem_cons_self _ _)

theorem map_inj_on_crl (k : GoStr → GoStr)
    (hk : ∀ a b, CleanRelLocal a → CleanRelLocal b → k a = k b → a = b) :
    ∀ l1 l2 : List GoStr, (∀ x ∈ l1, CleanRelLocal x) → (∀ x ∈ l2, CleanRelLocal x) →
      l1.map k = l2.map k → l1 = l2 := by
  intro l1
  induction l1 with
  | nil =>
    intro l2 h1 h2 he
    cases l2 with
    | nil => rfl
    | cons b bs => simp at he
  | cons a as ih =>
    intro l2 h1 h2 he
    cases l2 with
    | nil => simp at he
    | cons b bs =>
      simp only [List.map_cons, List.cons.injEq] at he
      obtain ⟨hab, htl⟩ := he
      have hab2 := hk a b (h1 a (by simp)) (h2 b (by simp)) hab
      rw [hab2, ih bs (fun x hx => h1 x (by simp [hx])) (fun x hx => h2 x (by simp [hx])) htl]

theorem firstOccAux_map (k : GoStr → GoStr)
    (hk : ∀ a b, CleanRelLocal a → CleanRelLocal b → k a = k b → a = b) :
    ∀ (xs seen : List GoStr), (∀ x ∈ xs, CleanRelLocal x) →
      (∀ x ∈ seen, CleanRelLocal x) →
      firstOccAux (seen.map k) (xs.map k) = (firstOccAux seen xs).map k := by
  intro xs
  induction xs with
  | nil => intro seen hxs hseen; simp [firstOccAux]
  | cons y ys ih =>
    intro seen hxs hseen
    simp only [List.map_cons, firstOccAux]
    have hmemIff : k y ∈ seen.map k ↔ y ∈ seen := by
      constructor
      · intro hm
        obtain ⟨z, hz, hkz⟩ := List.mem_map.mp hm
        rw [← hk z y (hseen z hz) (hxs y (by simp)) hkz]
        exact hz
      · intro hm
        exact List.mem_map.mpr ⟨y, hm, rfl⟩
    by_cases hy : y ∈ seen
    · rw [if_pos (hmemIff.mpr hy), if_pos hy]
      exact ih seen (fun x hx => hxs x (by simp [hx])) hseen
    · rw [if_neg (fun hc => hy (hmemIff.mp hc)), if_neg hy, List.map_cons]
      congr 1
      have hcons : (k y :: seen.map k) = (y :: seen).map k := by simp
      rw [hcons]
      refine ih (y :: seen) (fun x hx => hxs x (by simp [hx])) ?_
      intro x hx
      rcases List.mem_cons.mp hx with h | h
      · rw [h]
        exact hxs y (by simp)
      · exact hseen x h

theorem collectFilesToMove_spec (runPath : GoStr) (staging : GoStr → Option GoStr) :
    ∀ (handles : List FSHandle) (visited : List GoStr) (checksums : GoStr → Option GoStr)
      (out : List ControlledFile) (cks : GoStr → Option GoStr),
      collectFilesToMove runPath staging handles visited checksums = .ok (out, cks) →
      out.map (fun cf => cf.AbsPath) =
        firstOccAux visited
          (handles.map (fun hd => goClean (goJoin2 runPath hd.indirectTargetPath))) ∧
      (∀ cf ∈ out, cf.AbsPath = goClean (goJoin2 runPath cf.Path) ∧
        cf.Path ∈ handles.map (fun hd => hd.indirectTargetPath)) ∧
      (∀ p ∈ visited, cks p = checksums p) ∧
      (∀ cf ∈ out, ∃ cnt, staging cf.AbsPath = some cnt ∧
        cks cf.AbsPath = some (shaOf cnt)) := by
  intro handles
  induction handles with
  | nil =>
    intro visited checksums out cks hok
    simp only [collectFilesToMove] at hok
    obtain ⟨h1, h2⟩ : [] = out ∧ checksums = cks := by simpa using hok
    rw [← h1, ← h2]
    exact ⟨by simp [firstOccAux], by simp, fun p hp => rfl, by simp⟩
  | cons hd hs ih =>
    intro visited checksums out cks hok
    simp only [collectFilesToMove] at hok
    by_cases hvis : goClean (goJoin2 runPath hd.indirectTargetPath) ∈ visited
    · rw [if_pos hvis] at hok
      obtain ⟨ha, hb, hc, hd2⟩ := ih visited checksums out cks hok
      refine ⟨?_, ?_, hc, hd2⟩
      · rw [ha]
        simp only [List.map_cons, firstOccAux, if_pos hvis]
      · intro cf hcf
        obtain ⟨x1, x2⟩ := hb cf hcf
        exact ⟨x1, by simp [x2]⟩
    · rw [if_neg hvis] at hok
      cases hstag : staging (goClean (goJoin2 runPath hd.indirectTargetPath)) with
      | none => rw [hstag] at hok; exact absurd hok (by simp)
      | some content =>
        rw [hstag] at hok
        simp only [] at hok
        cases hrec : collectFilesToMove runPath staging hs
            (goClean (goJoin2 runPath hd.indirectTargetPath) :: visited)
            (fun p => if p = goClean (goJoin2 runPath hd.indirectTargetPath)
              then some (shaOf content) else checksums p) with
        | error e => rw [hrec] at hok; exact absurd hok (by simp)
        | ok pr =>
          rcases pr with ⟨rest, cks2⟩
          rw [hrec] at hok
          simp only [Except.ok.injEq, Prod.mk.injEq] at hok
          obtain ⟨hout, hcks⟩ := hok
          rw [← hout, ← hcks]
          obtain ⟨ha, hb, hc, hd2⟩ := ih _ _ _ _ hrec
          refine ⟨?_, ?_, ?_, ?_⟩
          · simp only [List.map_cons, firstOccAux, if_neg hvis]
            rw [ha]
          · intro cf hcf
            rcases List.mem_cons.mp hcf with h | h
            · rw [h]
              exact ⟨rfl, by simp⟩
            · obtain ⟨x1, x2⟩ := hb cf h
              exact ⟨x1, by simp [x2]⟩
          · intro p hp
            have hcp := hc p (by simp [hp])
            rw [hcp, if_neg ?_]
            intro he
            rw [he] at hp
            exact hvis hp
          · intro cf hcf
            rcases List.mem_cons.mp hcf with h | h
            · refine ⟨content, ?_, ?_⟩
              · rw [h]
                exact hstag
              · rw [h]
                have hck := hc (goClean (goJoin2 runPath hd.indirectTargetPath)) (by simp)
                rw [hck, if_pos rfl]
            · exact hd2 cf h

theorem buildNewLockfileFiles_spec (checksums staging : GoStr → Option GoStr) :
    ∀ (fs : List ControlledFile) (entries : List RPackLockFileFile),
      (∀ cf ∈ fs, ∃ cnt, staging cf.AbsPath = some cnt ∧
        checksums cf.AbsPath = some (shaOf cnt)) →
      buildNewLockfileFiles checksums fs = .ok entries →
      entries.map (fun f => f.Path) = fs.map (fun cf => cf.Path) ∧
      (∀ cf ∈ fs, ∃ cnt, staging cf.AbsPath = some cnt ∧
        (⟨cf.Path, shaOf cnt⟩ : RPackLockFileFile) ∈ entries) := by
  intro fs
  induction fs with
  | nil =>
    intro entries hck hok
    simp only [buildNewLockfileFiles] at hok
    obtain ⟨h1⟩ : ([] : List RPackLockFileFile) = entries := by simpa using hok
    exact ⟨by simp, by simp⟩
  | cons w ws ih =>
    intro entries hck hok
    simp only [buildNewLockfileFiles] at hok
    obtain ⟨cnt, hstag, hcks⟩ := hck w (by simp)
    rw [hcks] at hok
    cases hrec : buildNewLockfileFiles checksums ws with
    | error e => rw [hrec] at hok; exact absurd hok (by simp)
    | ok rest =>
      rw [hrec] at hok
      have hout : (⟨w.Path, shaOf cnt⟩ : RPackLockFileFile) :: rest = entries := by
        simpa using hok
      obtain ⟨ih1, ih2⟩ := ih rest (fun cf hcf => hck cf (by simp [hcf])) hrec
      rw [← hout]
      refine ⟨by simp [ih1], ?_⟩
      intro cf hcf
      rcases List.mem_cons.mp hcf with h | h
      · refine ⟨cnt, by rw [h]; exact hstag, by rw [h]; simp⟩
      · obtain ⟨c2, hs2, hm2⟩ := ih2 cf h
        exact ⟨c2, hs2, by simp [hm2]⟩

theorem doMoves_eq (execPath : GoStr) : ∀ fs : List ControlledFile,
    doMoves execPath fs =
      fs.map (fun w => (w.AbsPath, goClean (goJoin2 execPath w.Path))) := by
  intro fs
  induction fs with
  | nil => rfl
  | cons w ws ih => simp [doMoves, ih]

theorem runWrites_last (c : RPackFSCfg) :
    ∀ (ops : List (GoStr × GoStr)) (st0 : RPackFSState) (disk0 : GoStr → Option GoStr)
      (st : RPackFSState) (disk : GoStr → Option GoStr),
      RPackFS.runWrites c st0 disk0 ops = .ok (st, disk) →
      ∀ p, disk p = ops.foldl
        (fun acc op => match c.resolveName op.1 with
          | .ok hd => if p = hd.absPath then some op.2 else acc
          | .error _ => acc) (disk0 p) := by
  intro ops
  induction ops with
  | nil =>
    intro st0 disk0 st disk hok p
    simp only [RPackFS.runWrites] at hok
    obtain ⟨h1, h2⟩ : st0 = st ∧ disk0 = disk := by simpa using hok
    rw [← h2]
    simp
  | cons op ops ih =>
    intro st0 disk0 st disk hok p
    rcases op with ⟨name, b⟩
    simp only [RPackFS.runWrites] at hok
    cases hw : RPackFS.Write c st0 disk0 name b with
    | error e => rw [hw] at hok; exact absurd hok (by simp)
    | ok pr =>
      rcases pr with ⟨st1, disk1⟩
      rw [hw] at hok
      simp only [] at hok
      have hdisk := ih st1 disk1 st disk hok p
      unfold RPackFS.Write at hw
      cases hres : c.resolveName name with
      | error e => rw [hres] at hw; exact absurd hw (by simp)
      | ok handle =>
        rw [hres] at hw
        simp only [] at hw
        cases hhook : RPackAccessControlFSHook.Write handle with
        | some msg => rw [hhook] at hw; exact absurd hw (by simp)
        | none =>
          rw [hhook] at hw
          simp only [Except.ok.injEq, Prod.mk.injEq] at hw
          obtain ⟨-, hdisk1⟩ := hw
          rw [List.foldl_cons, hdisk]
          congr 1
          simp only []
          rw [hres]
          simp only []
          rw [← hdisk1]
          rfl

/-- The indirect target paths of the recorded target writes, in recording
order. -/
def targetITPs (records : List FSRecorderRecord) : List GoStr :=
  (TargetWriteHandles records).map (fun hd => hd.indirectTargetPath)

theorem list_map_congr {α β : Type} (f g : α → β) :
    ∀ l : List α, (∀ a ∈ l, f a = g a) → l.map f = l.map g := by
  intro l
  induction l with
  | nil => intro h; rfl
  | cons a as ih =>
    intro h
    simp only [List.map_cons]
    rw [h a (by simp), ih (fun x hx => h x (by simp [hx]))]

/-- C6: the staging tree after a sequence of mediated writes holds, at each
absolute path, the content of the last write that resolved to it; and in
the commit phase over recorded target-write handles with clean, relative,
local `indirect_target_path`s, each written path is materialized exactly
once, at the position of its first occurrence in the recorded write order,
moving the staged bytes for that path, and the new lockfile contains
exactly one entry per written path. -/
theorem commit_dedup_last_write :
    (∀ (c : RPackFSCfg) (ops : List (GoStr × GoStr)) (st0 : RPackFSState)
        (disk0 : GoStr → Option GoStr) (st : RPackFSState) (disk : GoStr → Option GoStr),
        RPackFS.runWrites c st0 disk0 ops = .ok (st, disk) →
        ∀ p, disk p = ops.foldl
          (fun acc op => match c.resolveName op.1 with
            | .ok hd => if p = hd.absPath then some op.2 else acc
            | .error _ => acc) (disk0 p)) ∧
    (∀ (force : Bool) (runPath execPath : GoStr) (records : List FSRecorderRecord)
        (staging : GoStr → Option GoStr) (oldLock : RPackLockFile)
        (disk : GoStr → DiskEntry) (outcome : ExecOutcome),
        (∀ hd ∈ TargetWriteHandles records, CleanRelLocal hd.indirectTargetPath) →
        Executor.ExecCommit false force runPath execPath records staging oldLock disk =
          .ok outcome →
        ∃ lock, outcome.newLock = some lock ∧
          lock.Files.map (fun f => f.Path) = firstOcc (targetITPs records) ∧
          (firstOcc (targetITPs records)).Nodup ∧
          (∀ q, q ∈ firstOcc (targetITPs records) ↔ q ∈ targetITPs records) ∧
          outcome.moved = (firstOcc (targetITPs records)).map
            (fun q => (goClean (goJoin2 runPath q), goClean (goJoin2 execPath q))) ∧
          (∀ q ∈ firstOcc (targetITPs records),
            ∃ cnt, staging (goClean (goJoin2 runPath q)) = some cnt ∧
              (⟨q, shaOf cnt⟩ : RPackLockFileFile) ∈ lock.Files)) := by
  refine ⟨runWrites_last, ?_⟩
  intro force runPath execPath records staging oldLock disk outcome hres hok
  have hitps : ∀ q ∈ targetITPs records, CleanRelLocal q := by
    intro q hq
    obtain ⟨hd, hmem, hqe⟩ := List.mem_map.mp hq
    rw [← hqe]
    exact hres hd hmem
  have hk : ∀ a b, CleanRelLocal a → CleanRelLocal b →
      goClean (goJoin2 runPath a) = goClean (goJoin2 runPath b) → a = b := by
    intro a b ha hb he
    rw [goJoin2_fixes _ _ ha, goJoin2_fixes _ _ hb] at he
    exact goJoin2_inj runPath a b ha hb he
  unfold Executor.ExecCommit at hok
  rw [if_neg (by simp)] at hok
  cases hcol : collectFilesToMove runPath staging (TargetWriteHandles records) []
      (fun _ => none) with
  | error e => rw [hcol] at hok; exact absurd hok (by simp)
  | ok pr =>
    rcases pr with ⟨filesToMove, checksums⟩
    rw [hcol] at hok
    simp only [] at hok
    by_cases hgate : (oldLock.CheckIntegrity execPath disk).Modified ≠ [] ∧ ¬force
    · rw [if_pos hgate] at hok
      exact absurd hok (by simp)
    rw [if_neg hgate] at hok
    cases hbuild : buildNewLockfileFiles checksums filesToMove with
    | error e => rw [hbuild] at hok; exact absurd hok (by simp)
    | ok files =>
      rw [hbuild] at hok
      simp only [] at hok
      cases hover : overwriteGate force execPath disk
          (RPackLockFile.Changes ⟨NewRPackLockFile.SchemaVersion, files⟩ oldLock).Added with
      | some msg => rw [hover] at hok; exact absurd hok (by simp)
      | none =>
        rw [hover] at hok
        cases hrem : doRemovals execPath disk
            (RPackLockFile.Changes ⟨NewRPackLockFile.SchemaVersion, files⟩ oldLock).Removed with
        | error e => rw [hrem] at hok; exact absurd hok (by simp)
        | ok removedPaths =>
          rw [hrem] at hok
          simp only [Except.ok.injEq] at hok
          obtain ⟨hA, hB, hC, hD⟩ := collectFilesToMove_spec runPath staging
            (TargetWriteHandles records) [] (fun _ => none) filesToMove checksums hcol
          have hA2 : filesToMove.map (fun cf => cf.AbsPath) =
              firstOccAux []
                ((targetITPs records).map (fun q => goClean (goJoin2 runPath q))) := by
            rw [hA]
            congr 1
            unfold targetITPs
            rw [List.map_map]
            rfl
          have hcomm := firstOccAux_map (fun q => goClean (goJoin2 runPath q)) hk
            (targetITPs records) [] hitps (by simp)
          simp only [List.map_nil] at hcomm
          have hfmPathCRL : ∀ x ∈ filesToMove.map (fun cf => cf.Path), CleanRelLocal x := by
            intro x hx
            obtain ⟨cf, hcf, hxe⟩ := List.mem_map.mp hx
            rw [← hxe]
            exact hitps _ ((hB cf hcf).2)
          have hfoCRL : ∀ x ∈ firstOcc (targetITPs records), CleanRelLocal x := by
            intro x hx
            exact hitps x ((firstOccAux_mem x _ _).mp hx).1
          have hPaths : filesToMove.map (fun cf => cf.Path) = firstOcc (targetITPs records) := by
            apply map_inj_on_crl _ hk _ _ hfmPathCRL hfoCRL
            have hstep1 : (filesToMove.map (fun cf => cf.Path)).map
                (fun q => goClean (goJoin2 runPath q)) =
                filesToMove.map (fun cf => goClean (goJoin2 runPath cf.Path)) := by
              rw [List.map_map]
              rfl
            have hstep2 : filesToMove.map (fun cf => goClean (goJoin2 runPath cf.Path)) =
                filesToMove.map (fun cf => cf.AbsPath) := by
              apply list_map_congr
              intro cf hcf
              exact ((hB cf hcf).1).symm
            rw [hstep1, hstep2, hA2]
            exact hcomm
          obtain ⟨hE1, hE2⟩ := buildNewLockfileFiles_spec checksums staging filesToMove
            files hD hbuild
          refine ⟨⟨NewRPackLockFile.SchemaVersion, files⟩, ?_, ?_, ?_, ?_, ?_, ?_⟩
          · rw [← hok]
          · show List.map (fun f => f.Path) files = firstOcc (targetITPs records)
            rw [hE1, hPaths]
          · exact firstOccAux_nodup _ _
          · intro q
            simpa using firstOccAux_mem q (targetITPs records) []
          · rw [← hok]
            show doMoves execPath filesToMove = _
            rw [doMoves_eq]
            have hstep : filesToMove.map
                (fun w => (w.AbsPath, goClean (goJoin2 execPath w.Path))) =
                filesToMove.map (fun w => (goClean (goJoin2 runPath w.Path),
                  goClean (goJoin2 execPath w.Path))) := by
              apply list_map_congr
              intro cf hcf
              rw [(hB cf hcf).1]
            rw [hstep, ← hPaths, List.map_map]
            rfl
          · intro q hq
            have hq2 : q ∈ filesToMove.map (fun cf => cf.Path) := by
              rw [hPaths]; exact hq
            obtain ⟨w, hw, hwq⟩ := List.mem_map.mp hq2
            obtain ⟨cnt, hst, hmem⟩ := hE2 w hw
            refine ⟨cnt, ?_, ?_⟩
            · rw [← hwq, ← (hB w hw).1]
              exact hst
            · rw [← hwq]
              exact hmem

theorem containsSub_iff (pat : GoStr) : ∀ s : GoStr,
    containsSub s pat = true ↔ ∃ s1 s2, s1 ++ s2 = s ∧ pat.isPrefixOf s2 = true := by
  intro s
  induction s with
  | nil =>
    unfold containsSub subIdx?
    by_cases hp : pat.isPrefixOf []
    · rw [if_pos hp]
      simp only [Option.isSome_some]
      constructor
      · intro h2
        exact ⟨[], [], rfl, hp⟩
      · intro h2
        trivial
    · rw [if_neg hp]
      constructor
      · intro h
        simp at h
      · rintro ⟨s1, s2, he, hpre⟩
        obtain ⟨h1, h2⟩ := List.append_eq_nil.mp he
        rw [h2] at hpre
        exact absurd hpre hp
  | cons c cs ih =>
    unfold containsSub subIdx?
    by_cases hp : pat.isPrefixOf (c :: cs)
    · rw [if_pos hp]
      simp only [Option.isSome_some]
      constructor
      · intro h2
        exact ⟨[], c :: cs, rfl, hp⟩
      · intro h2
        trivial
    · rw [if_neg hp]
      simp only []
      constructor
      · intro h
        have h2 : containsSub cs pat = true := by
          unfold containsSub
          cases hsub : subIdx? cs pat with
          | none => rw [hsub] at h; simp at h
          | some i => rfl
        obtain ⟨s1, s2, he, hpre⟩ := ih.mp h2
        exact ⟨c :: s1, s2, by rw [← he]; rfl, hpre⟩
      · rintro ⟨s1, s2, he, hpre⟩
        cases s1 with
        | nil =>
          simp only [List.nil_append] at he
          rw [he] at hpre
          exact absurd hpre hp
        | cons a as =>
          simp only [List.cons_append, List.cons.injEq] at he
          obtain ⟨-, he2⟩ := he
          have h2 := ih.mpr ⟨as, s2, he2, hpre⟩
          unfold containsSub at h2
          cases hsub : subIdx? cs pat with
          | none => rw [hsub] at h2; simp at h2
          | some i => rfl

theorem containsSub_eq_false_iff (s pat : GoStr) :
    containsSub s pat = false ↔ ∀ s1 s3, s1 ++ (pat ++ s3) ≠ s := by
  constructor
  · intro h s1 s3 he
    have h2 : containsSub s pat = true := by
      apply (containsSub_iff pat s).mpr
      refine ⟨s1, pat ++ s3, he, ?_⟩
      rw [List.isPrefixOf_iff_prefix]
      exact ⟨s3, rfl⟩
    rw [h] at h2
    exact absurd h2 (by simp)
  · intro h
    cases hc : containsSub s pat with
    | false => rfl
    | true =>
      obtain ⟨s1, s2, he, hpre⟩ := (containsSub_iff pat s).mp hc
      obtain ⟨s3, hs3⟩ := List.isPrefixOf_iff_prefix.mp hpre
      exact absurd (by rw [← he, ← hs3] : s1 ++ (pat ++ s3) = s) (h s1 s3)

theorem crlf_split_cases : ∀ (a b s1 s3 : GoStr),
    s1 ++ (['\r', '\n'] ++ s3) = a ++ b →
    (∃ u t, a = u ++ (['\r', '\n'] ++ t)) ∨
    ((∃ p, a = p ++ ['\r']) ∧ (∃ t, b = '\n' :: t)) ∨
    (∃ u, b = u ++ (['\r', '\n'] ++ s3)) := by
  intro a
  induction a with
  | nil =>
    intro b s1 s3 he
    right; right
    exact ⟨s1, by simpa using he.symm⟩
  | cons c cs ih =>
    intro b s1 s3 he
    cases s1 with
    | nil =>
      simp only [List.nil_append, List.cons_append] at he
      injection he with h1 h2
      cases cs with
      | nil =>
        right; left
        refine ⟨⟨[], by rw [← h1]; rfl⟩, ⟨s3, ?_⟩⟩
        simpa using h2.symm
      | cons d ds =>
        rw [List.cons_append] at h2
        injection h2 with h3 h4
        left
        refine ⟨[], ds, ?_⟩
        rw [← h1, ← h3]
        rfl
    | cons x xs =>
      rw [List.cons_append, List.cons_append] at he
      injection he with h1 h2
      rcases ih b xs s3 h2 with ⟨u, t, hu⟩ | ⟨⟨p, hp⟩, hb2⟩ | h3
      · left
        refine ⟨c :: u, t, ?_⟩
        rw [hu]
        rfl
      · right; left
        refine ⟨⟨c :: p, ?_⟩, hb2⟩
        rw [hp]
        rfl
      · right; right
        exact h3

theorem crlf_free_append (a b : GoStr)
    (ha : containsSub a ['\r', '\n'] = false)
    (hb : containsSub b ['\r', '\n'] = false)
    (hbound : ¬(a.getLast? = some '\r' ∧ b.head? = some '\n')) :
    containsSub (a ++ b) ['\r', '\n'] = false := by
  rw [containsSub_eq_false_iff]
  intro s1 s3 he
  rcases crlf_split_cases a b s1 s3 he with ⟨u, t, hu⟩ | ⟨⟨p, hp⟩, ⟨t, ht⟩⟩ | ⟨u, hu⟩
  · exact (containsSub_eq_false_iff a _).mp ha u t hu.symm
  · apply hbound
    constructor
    · rw [hp]
      simp
    · rw [ht]
      rfl
  · exact (containsSub_eq_false_iff b _).mp hb u s3 hu.symm

theorem nl_free_no_crlf (l : GoStr) (h : containsSub l ['\n'] = false) :
    containsSub l ['\r', '\n'] = false := by
  rw [containsSub_eq_false_iff] at h ⊢
  intro s1 s3 he
  apply h (s1 ++ ['\r']) s3
  rw [← he]
  simp

theorem subIdx_at (sep t : GoStr) : ∀ l : GoStr,
    (∀ l1 l2, l1 ++ l2 = l → l2 ≠ [] → ¬ sep.isPrefixOf (l2 ++ (sep ++ t)) = true) →
    subIdx? (l ++ (sep ++ t)) sep = some l.length := by
  intro l
  induction l with
  | nil =>
    intro h
    unfold subIdx?
    rw [if_pos ?hpre]
    · rfl
    · rw [List.isPrefixOf_iff_prefix]
      exact ⟨t, rfl⟩
  | cons c cs ih =>
    intro h
    unfold subIdx?
    rw [if_neg (h [] (c :: cs) rfl (by simp))]
    simp only [List.cons_append]
    have ih2 := ih (fun l1 l2 he hne => h (c :: l1) l2 (by rw [← he]; rfl) hne)
    rw [ih2]
    simp

theorem goSplitF_nil (sep : GoStr) (hsep : sep ≠ []) (fuel : Nat) :
    goSplitF sep fuel [] = [[]] := by
  cases fuel with
  | zero => rfl
  | succ f =>
    have hpre : ¬ sep.isPrefixOf [] = true := by
      cases sep with
      | nil => exact absurd rfl hsep
      | cons a as => simp [List.isPrefixOf]
    unfold goSplitF subIdx?
    rw [if_neg hpre]

/-- No line of the list can start an occurrence of the separator anywhere
but at a separator position, whatever follows the line. -/
def SepSafe (sep : GoStr) (ls : List GoStr) : Prop :=
  ∀ l ∈ ls, ∀ l1 l2, l1 ++ l2 = l → l2 ≠ [] → ∀ t, ¬ sep.isPrefixOf (l2 ++ (sep ++ t)) = true

theorem drop_append_len {α : Type} (a : List α) (n : Nat) : ∀ b : List α,
    (a ++ b).drop (a.length + n) = b.drop n := by
  induction a with
  | nil => intro b; simp
  | cons x xs ih =>
    intro b
    rw [List.cons_append, List.length_cons, Nat.add_right_comm, List.drop_succ_cons]
    exact ih b

theorem goSplitF_rt (sep : GoStr) (hsep : sep ≠ []) :
    ∀ ls : List GoStr, ls ≠ [] → SepSafe sep ls →
    ∀ fuel, (goStringsJoin ls sep ++ sep).length ≤ fuel →
    goSplitF sep fuel (goStringsJoin ls sep ++ sep) = ls ++ [[]] := by
  intro ls
  induction ls with
  | nil => intro h; exact absurd rfl h
  | cons l rest ih =>
    intro hne hsafe fuel hfuel
    have hseplen : 1 ≤ sep.length := by
      cases sep with
      | nil => exact absurd rfl hsep
      | cons a as => simp
    cases fuel with
    | zero =>
      exfalso
      simp only [List.length_append] at hfuel
      omega
    | succ f =>
      cases rest with
      | nil =>
        unfold goSplitF
        have hj : goStringsJoin [l] sep = l := rfl
        rw [hj] at hfuel ⊢
        have hidx : subIdx? (l ++ sep) sep = some l.length := by
          have h2 := subIdx_at sep [] l ?hsafe2
          · rw [List.append_nil] at h2
            exact h2
          case hsafe2 =>
            intro l1 l2 he hne2
            exact hsafe l (by simp) l1 l2 he hne2 []
        rw [hidx]
        simp only []
        rw [List.take_left]
        have hdrop : (l ++ sep).drop (l.length + sep.length) = [] := by
          apply List.drop_eq_nil_of_le
          simp
        rw [hdrop, goSplitF_nil sep hsep f]
        rfl
      | cons l2 rest2 =>
        unfold goSplitF
        have hj : goStringsJoin (l :: l2 :: rest2) sep =
            l ++ sep ++ goStringsJoin (l2 :: rest2) sep := rfl
        rw [hj] at hfuel ⊢
        have hassoc : (l ++ sep ++ goStringsJoin (l2 :: rest2) sep) ++ sep =
            l ++ (sep ++ (goStringsJoin (l2 :: rest2) sep ++ sep)) := by
          simp [List.append_assoc]
        rw [hassoc]
        have hidx := subIdx_at sep (goStringsJoin (l2 :: rest2) sep ++ sep) l
          (fun l1 lt he hne2 => hsafe l (by simp) l1 lt he hne2 _)
        rw [hidx]
        simp only []
        rw [List.take_left]
        have hdrop : (l ++ (sep ++ (goStringsJoin (l2 :: rest2) sep ++ sep))).drop
            (l.length + sep.length) = goStringsJoin (l2 :: rest2) sep ++ sep := by
          rw [drop_append_len l sep.length, List.drop_left]
        rw [hdrop]
        have hrec := ih (by simp) (fun l3 hl3 => hsafe l3 (by simp [hl3])) f ?hf
        · rw [hrec]
          rfl
        case hf =>
          simp only [List.length_append] at hfuel ⊢
          omega

theorem sepSafe_nl (ls : List GoStr) (h : ∀ l ∈ ls, containsSub l ['\n'] = false) :
    SepSafe ['\n'] ls := by
  intro l hl l1 l2 he hne t hpre
  obtain ⟨t2, ht2⟩ := List.isPrefixOf_iff_prefix.mp hpre
  cases l2 with
  | nil => exact hne rfl
  | cons c cs =>
    rw [List.cons_append] at ht2
    injection ht2 with h1 h2
    apply (containsSub_eq_false_iff l ['\n']).mp (h l hl) l1 cs
    rw [← he, ← h1]
    rfl

theorem sepSafe_crlf (ls : List GoStr) (h : ∀ l ∈ ls, containsSub l ['\r', '\n'] = false) :
    SepSafe ['\r', '\n'] ls := by
  intro l hl l1 l2 he hne t hpre
  obtain ⟨t2, ht2⟩ := List.isPrefixOf_iff_prefix.mp hpre
  cases l2 with
  | nil => exact hne rfl
  | cons c cs =>
    rw [List.cons_append] at ht2
    injection ht2 with h1 h2
    cases cs with
    | nil =>
      injection h2 with h3 h4
      exact absurd h3 (by decide)
    | cons d ds =>
      rw [List.cons_append] at h2
      injection h2 with h3 h4
      apply (containsSub_eq_false_iff l ['\r', '\n']).mp (h l hl) l1 ds
      rw [← he, ← h1, ← h3]
      rfl

theorem content_contains_crlf (lines : List GoStr) :
    containsSub (goStringsJoin lines ['\r', '\n'] ++ ['\r', '\n']) ['\r', '\n'] = true := by
  apply (containsSub_iff _ _).mpr
  refine ⟨goStringsJoin lines ['\r', '\n'], ['\r', '\n'], rfl, ?_⟩
  rw [List.isPrefixOf_iff_prefix]

theorem nl_content_no_crlf : ∀ lines : List GoStr, lines ≠ [] →
    (∀ l ∈ lines, containsSub l ['\n'] = false) →
    (∀ l ∈ lines, l.getLast? ≠ some '\r') →
    containsSub (goStringsJoin lines ['\n'] ++ ['\n']) ['\r', '\n'] = false := by
  intro lines
  induction lines with
  | nil => intro h; exact absurd rfl h
  | cons l rest ih =>
    intro hne hnc hcr
    cases rest with
    | nil =>
      have hj : goStringsJoin [l] ['\n'] = l := rfl
      rw [hj]
      apply crlf_free_append
      · exact nl_free_no_crlf l (hnc l (by simp))
      · decide
      · rintro ⟨h1, -⟩
        exact hcr l (by simp) h1
    | cons l2 rest2 =>
      have hj : goStringsJoin (l :: l2 :: rest2) ['\n'] =
          l ++ ['\n'] ++ goStringsJoin (l2 :: rest2) ['\n'] := rfl
      rw [hj]
      have hassoc : (l ++ ['\n'] ++ goStringsJoin (l2 :: rest2) ['\n']) ++ ['\n'] =
          l ++ (['\n'] ++ (goStringsJoin (l2 :: rest2) ['\n'] ++ ['\n'])) := by
        simp [List.append_assoc]
      rw [hassoc]
      apply crlf_free_append
      · exact nl_free_no_crlf l (hnc l (by simp))
      · apply crlf_free_append
        · decide
        · exact ih (by simp) (fun x hx => hnc x (by simp [hx]))
            (fun x hx => hcr x (by simp [hx]))
        · rintro ⟨h1, -⟩
          simp at h1
      · rintro ⟨h1, -⟩
        exact hcr l (by simp) h1

theorem isSuffixOf_append_self (sep x : GoStr) : sep.isSuffixOf (x ++ sep) = true := by
  rw [List.isSuffixOf_iff_suffix]
  exact List.suffix_append x sep

theorem find?_append_none {α : Type} (p : α → Bool) : ∀ l1 l2 : List α,
    l1.find? p = none → (l1 ++ l2).find? p = l2.find? p := by
  intro l1
  induction l1 with
  | nil => intro l2 h; rfl
  | cons a as ih =>
    intro l2 h
    by_cases hp : p a = true
    · rw [List.find?_cons_of_pos _ hp] at h
      exact absurd h (by simp)
    · rw [List.find?_cons_of_neg _ (by simpa using hp)] at h
      rw [List.cons_append, List.find?_cons_of_neg _ (by simpa using hp)]
      exact ih l2 h

theorem find?_update (name b : GoStr) : ∀ tree : List (GoStr × InMemoryFSEntry),
    (tree.map (fun kv => if kv.1 = name then (kv.1, (⟨b, kv.2.IsDir⟩ : InMemoryFSEntry))
      else kv)).find? (fun kv => kv.1 = name) =
    (tree.find? (fun kv => kv.1 = name)).map
      (fun kv => (kv.1, (⟨b, kv.2.IsDir⟩ : InMemoryFSEntry))) := by
  intro tree
  induction tree with
  | nil => rfl
  | cons kv rest ih =>
    by_cases hk : kv.1 = name
    · rw [List.map_cons, if_pos hk,
        List.find?_cons_of_pos _ (by simp [hk]),
        List.find?_cons_of_pos _ (by simp [hk])]
      rfl
    · rw [List.map_cons, if_neg hk,
        List.find?_cons_of_neg _ (by simp [hk]),
        List.find?_cons_of_neg _ (by simp [hk]), ih]

theorem inmem_write_read (fs fs2 : InMemoryFS) (name b : GoStr)
    (hw : fs.Write name b = .ok fs2) : fs2.Read name = .ok b := by
  unfold InMemoryFS.Write at hw
  cases hl : fs.lookup name with
  | none =>
    rw [hl] at hw
    simp only [Except.ok.injEq] at hw
    rw [← hw]
    unfold InMemoryFS.Read InMemoryFS.lookup
    simp only []
    have hnone : fs.Tree.find? (fun kv => kv.1 = name) = none := by
      unfold InMemoryFS.lookup at hl
      cases hf : fs.Tree.find? (fun kv => kv.1 = name) with
      | none => rfl
      | some kv => rw [hf] at hl; simp at hl
    rw [find?_append_none _ _ _ hnone]
    rw [List.find?_cons_of_pos _ (by simp)]
    rfl
  | some e =>
    rw [hl] at hw
    simp only [] at hw
    by_cases hdir : e.IsDir = true
    · rw [if_pos hdir] at hw
      exact absurd hw (by simp)
    · rw [if_neg hdir] at hw
      simp only [Except.ok.injEq] at hw
      rw [← hw]
      unfold InMemoryFS.Read InMemoryFS.lookup
      simp only []
      rw [find?_update]
      unfold InMemoryFS.lookup at hl
      cases hf : fs.Tree.find? (fun kv => kv.1 = name) with
      | none => rw [hf] at hl; simp at hl
      | some kv =>
        rw [hf] at hl
        simp at hl
        simp [hl, hdir]

theorem readLinesOfContent_rt (lines : List GoStr) (sep : GoStr)
    (hsep : sep = ['\n'] ∨ sep = ['\r', '\n'])
    (hne : lines ≠ [])
    (hnc : ∀ l ∈ lines, containsSub l sep = false)
    (hcr : sep = ['\n'] → ∀ l ∈ lines, l.getLast? ≠ some '\r') :
    readLinesOfContent (goStringsJoin lines sep ++ sep) = ⟨lines, sep, true⟩ := by
  rcases hsep with hs | hs
  · subst hs
    unfold readLinesOfContent
    rw [show "\r\n".toList = ['\r', '\n'] from by decide,
      show "\n".toList = ['\n'] from by decide]
    rw [nl_content_no_crlf lines hne hnc (hcr rfl)]
    simp only [Bool.false_eq_true, if_false]
    rw [isSuffixOf_append_self]
    have hsplit : goSplit (goStringsJoin lines ['\n'] ++ ['\n']) ['\n'] = lines ++ [[]] := by
      unfold goSplit
      rw [if_neg (by decide)]
      exact goSplitF_rt ['\n'] (by decide) lines hne (sepSafe_nl lines hnc) _ (le_refl _)
    rw [hsplit]
    rw [if_pos ⟨rfl, by simp, by simp⟩]
    rw [List.dropLast_concat]
  · subst hs
    unfold readLinesOfContent
    rw [show "\r\n".toList = ['\r', '\n'] from by decide,
      show "\n".toList = ['\n'] from by decide]
    rw [content_contains_crlf lines]
    simp only [if_true]
    rw [isSuffixOf_append_self]
    have hsplit : goSplit (goStringsJoin lines ['\r', '\n'] ++ ['\r', '\n']) ['\r', '\n'] =
        lines ++ [[]] := by
      unfold goSplit
      rw [if_neg (by decide)]
      exact goSplitF_rt ['\r', '\n'] (by decide) lines hne (sepSafe_crlf lines hnc) _
        (le_refl _)
    rw [hsplit]
    rw [if_pos ⟨rfl, by simp, by simp⟩]
    rw [List.dropLast_concat]

/-- C8 (corrected): writing lines with a final separator and reading them
back returns exactly the lines, the separator and a final-newline flag,
provided the line list is non-empty, no line contains the separator, and —
for the plain `\n` separator — no line ends in `\r` (otherwise the reader
detects a CRLF separator across a line boundary). -/
theorem write_read_lines_roundtrip (fs fs2 : InMemoryFS) (friendly : GoStr)
    (lines : List GoStr) (sep : GoStr)
    (hsep : sep = ['\n'] ∨ sep = ['\r', '\n'])
    (hne : lines ≠ [])
    (hnc : ∀ l ∈ lines, containsSub l sep = false)
    (hcr : sep = ['\n'] → ∀ l ∈ lines, l.getLast? ≠ some '\r')
    (hw : LuaModel.luaWriteLines fs friendly lines sep true = .ok fs2) :
    LuaModel.luaReadLines fs2 friendly = .ok ⟨lines, sep, true⟩ := by
  unfold LuaModel.luaWriteLines at hw
  have hrd := inmem_write_read fs fs2 friendly _ hw
  unfold LuaModel.luaReadLines
  rw [hrd]
  simp only []
  have hcontent : writeLinesContent lines sep true = goStringsJoin lines sep ++ sep := by
    unfold writeLinesContent
    rw [if_pos rfl]
  rw [hcontent, readLinesOfContent_rt lines sep hsep hne hnc hcr]

/-- Witness for the corrected round-trip on a concrete one-line file. -/
theorem write_read_lines_roundtrip_witness :
    LuaModel.luaReadLines ⟨[(['f'], ⟨['a', '\n'], false⟩)]⟩ ['f'] =
      .ok ⟨[['a']], ['\n'], true⟩ :=
  write_read_lines_roundtrip ⟨[]⟩ ⟨[(['f'], ⟨['a', '\n'], false⟩)]⟩ ['f'] [['a']] ['\n']
    (Or.inl rfl) (by decide) (by decide) (by decide) (by decide)

/-- Counterexample to the round-trip as stated: the empty line list
vacuously contains no separator, yet writing it with a final newline and
reading back yields one empty line, not the empty list. -/
theorem write_read_lines_empty_flaw :
    LuaModel.luaWriteLines ⟨[]⟩ ['f'] [] ['\n'] true =
      .ok ⟨[(['f'], ⟨['\n'], false⟩)]⟩ ∧
    LuaModel.luaReadLines ⟨[(['f'], ⟨['\n'], false⟩)]⟩ ['f'] =
      .ok ⟨[[]], ['\n'], true⟩ ∧
    ([[]] : List GoStr) ≠ [] := by decide

/-- Witness for the unknown-prefix behaviour at the concrete name
`unknown:foo` under `c3Cfg`. -/
theorem unknown_prefix_claimed_by_target_witness :
    (FileBackedFSResolver.Resolve TargetResolver [] c3Cfg.runPath "unknown:foo".toList =
      some (c3Cfg.resolveName "unknown:foo".toList)) ∧
    (∀ e, c3Cfg.resolveName "unknown:foo".toList ≠ .error (.unresolved e)) ∧
    ((∃ h, c3Cfg.resolveName "unknown:foo".toList = .ok h ∧
        h.resolver = TargetResolver) ↔
      (goIsAbs (goClean "unknown:foo".toList) = false ∧
        goIsLocal (goClean "unknown:foo".toList) = true)) :=
  unknown_prefix_claimed_by_target c3Cfg "unknown:foo".toList (by decide) (by decide)
    (by decide)
